import Mathlib

/-!
# LN2_NEIGHBORS: first-order neighbours of each label

A shallow embedding of `src/src/LN2_NEIGHBORS.cpp` (the body of `main` after the
image has been read and converted to `int32`) and of the two index helpers
`ind2sub_3D` / `sub2ind_3D` of `src/dep/laynii_lib.cpp`.

Machine integers: a `uint32_t` is a `Nat` below `2^32`, every `uint32_t`
operation is reduced modulo `2^32`; an `int32_t` / `int` is an `Int`, and the
conversions between the two are `toU32` and `toI32`.  Buffers are lists; a read
`*(p + i)` is `List.getD p i 0` and a write is `List.set`.  Reads and writes
outside a buffer are undefined in the source; `neighbor_reads_sound`,
`idx_label_at` and `output_getElem?` show that on a well-formed grid whose
output size fits 32 bits every access of the program is inside its buffer.
-/

namespace LN2

/-! ## Machine integers -/

/-- Conversion of a signed value to `uint32_t` (reduction modulo `2^32`). -/
def toU32 (v : Int) : Nat := (v % 4294967296).toNat

/-- Conversion of a `uint32_t` value to `int32_t` / `int` (two's complement). -/
def toI32 (n : Nat) : Int :=
  if n % 4294967296 < 2147483648 then ((n % 4294967296 : Nat) : Int)
  else ((n % 4294967296 : Nat) : Int) - 4294967296

/-- Addition on `uint32_t`. -/
def add32 (a b : Nat) : Nat := (a + b) % 4294967296

/-- Subtraction on `uint32_t` (wraps below zero). -/
def sub32 (a b : Nat) : Nat := (a + 4294967296 - b % 4294967296) % 4294967296

/-- Multiplication on `uint32_t`. -/
def mul32 (a b : Nat) : Nat := (a * b) % 4294967296

/-! ## Index helpers (`laynii_lib.cpp`) -/

/-- The function `ind2sub_3D`: linear index to `(x, y, z)`. -/
def ind2sub_3D (linear_index size_x size_y : Nat) : Nat × Nat × Nat :=
  let z := linear_index / (mul32 size_x size_y)
  let temp := linear_index % (mul32 size_x size_y)
  let y := temp / size_x
  let x := temp % size_x
  (x, y, z)

/-- The function `sub2ind_3D`: `(x, y, z)` to linear index. -/
def sub2ind_3D (x y z size_x size_y : Nat) : Nat :=
  add32 (add32 (mul32 (mul32 size_x size_y) z) (mul32 size_x y)) x

/-! ## Ordered sets (`std::set`) as strictly ascending lists -/

/-- The operation `std::set::insert`: ordered insertion, a key already present
is not inserted again. -/
def set_insert {α : Type} [LinearOrder α] (v : α) : List α → List α
  | [] => [v]
  | x :: xs =>
    if v < x then v :: x :: xs
    else if v = x then x :: xs
    else x :: set_insert v xs

/-- The operation `std::set::erase(key)`. -/
def set_erase {α : Type} [DecidableEq α] (v : α) (s : List α) : List α :=
  s.filter (fun x => decide (x ≠ v))

/-! ## The voxel grid -/

/-- The input after `copy_nifti_as_int32`: the three dimensions and the flat
`int32` buffer. -/
structure Grid where
  size_x : Nat
  size_y : Nat
  size_z : Nat
  data : List Int

/-- A read `*(nii_input_data + i)`. -/
def Grid.at (g : Grid) (i : Nat) : Int := g.data.getD i 0

/-- The constant `nr_voxels = size_z * size_y * size_x`. -/
def nr_voxels (g : Grid) : Nat := mul32 (mul32 g.size_z g.size_y) g.size_x

/-- The constant `end_x = size_x - 1`. -/
def end_x (g : Grid) : Nat := sub32 g.size_x 1

/-- The constant `end_y = size_y - 1`. -/
def end_y (g : Grid) : Nat := sub32 g.size_y 1

/-- The constant `end_z = size_z - 1`. -/
def end_z (g : Grid) : Nat := sub32 g.size_z 1

/-! ## Voxels of interest -/

/-- First scan: the counter `nr_voi`. -/
def nr_voi (g : Grid) : Nat :=
  (List.range (nr_voxels g)).foldl
    (fun n i => if g.at i ≠ 0 then add32 n 1 else n) 0

/-- Second scan: the buffer `voi_id` (allocated with `nr_voi` cells, which the
scan overwrites one by one; their content before the scan is taken as `0`)
together with the final value of the write cursor `ii`. -/
def voi_fill (g : Grid) : List Int × Nat :=
  (List.range (nr_voxels g)).foldl
    (fun st i => if g.at i ≠ 0 then (st.1.set st.2 (toI32 i), add32 st.2 1) else st)
    (List.replicate (nr_voi g) 0, 0)

/-- The buffer `voi_id` after the second scan. -/
def voi_id (g : Grid) : List Int := (voi_fill g).1

/-- The positions visited by a loop `for (ii = 0; ii != nr_voi; ++ii)` with
`i = *(voi_id + ii)` read as `uint32_t`. -/
def voi_seq (g : Grid) : List Nat :=
  (List.range (nr_voi g)).map (fun ii => toU32 ((voi_id g).getD ii 0))

/-! ## Unique labels -/

/-- The set `set_labels` (a `set<int>`), in iteration order. -/
def set_labels (g : Grid) : List Int :=
  (voi_seq g).foldl (fun s i => set_insert (g.at i) s) []

/-! ## Neighbour discovery -/

/-- One guarded branch `if (guard) { j = ...; set_neighbors.insert(*(nii_input_data + j)); }`:
the index read, if any. -/
def branch (guard : Prop) [Decidable guard] (j : Nat) : List Nat :=
  if guard then [j] else []

/-- The 26 guarded branches of the loop body, in source order: the linear
indices `j` computed for the voxel `(ix, iy, iz)`; `ex`, `ey`, `ez` are
`end_x`, `end_y`, `end_z`. -/
def jumps (sx sy ex ey ez ix iy iz : Nat) : List Nat :=
  -- 1-jump neighbours
  branch (ix > 0) (sub2ind_3D (sub32 ix 1) iy iz sx sy) ++
  branch (ix < ex) (sub2ind_3D (add32 ix 1) iy iz sx sy) ++
  branch (iy > 0) (sub2ind_3D ix (sub32 iy 1) iz sx sy) ++
  branch (iy < ey) (sub2ind_3D ix (add32 iy 1) iz sx sy) ++
  branch (iz > 0) (sub2ind_3D ix iy (sub32 iz 1) sx sy) ++
  branch (iz < ez) (sub2ind_3D ix iy (add32 iz 1) sx sy) ++
  -- 2-jump neighbours
  branch (ix > 0 ∧ iy > 0) (sub2ind_3D (sub32 ix 1) (sub32 iy 1) iz sx sy) ++
  branch (ix > 0 ∧ iy < ey) (sub2ind_3D (sub32 ix 1) (add32 iy 1) iz sx sy) ++
  branch (ix < ex ∧ iy > 0) (sub2ind_3D (add32 ix 1) (sub32 iy 1) iz sx sy) ++
  branch (ix < ex ∧ iy < ey) (sub2ind_3D (add32 ix 1) (add32 iy 1) iz sx sy) ++
  branch (iy > 0 ∧ iz > 0) (sub2ind_3D ix (sub32 iy 1) (sub32 iz 1) sx sy) ++
  branch (iy > 0 ∧ iz < ez) (sub2ind_3D ix (sub32 iy 1) (add32 iz 1) sx sy) ++
  branch (iy < ey ∧ iz > 0) (sub2ind_3D ix (add32 iy 1) (sub32 iz 1) sx sy) ++
  branch (iy < ey ∧ iz < ez) (sub2ind_3D ix (add32 iy 1) (add32 iz 1) sx sy) ++
  branch (ix > 0 ∧ iz > 0) (sub2ind_3D (sub32 ix 1) iy (sub32 iz 1) sx sy) ++
  branch (ix < ex ∧ iz > 0) (sub2ind_3D (add32 ix 1) iy (sub32 iz 1) sx sy) ++
  branch (ix > 0 ∧ iz < ez) (sub2ind_3D (sub32 ix 1) iy (add32 iz 1) sx sy) ++
  branch (ix < ex ∧ iz < ez) (sub2ind_3D (add32 ix 1) iy (add32 iz 1) sx sy) ++
  -- 3-jump neighbours
  branch (ix > 0 ∧ iy > 0 ∧ iz > 0) (sub2ind_3D (sub32 ix 1) (sub32 iy 1) (sub32 iz 1) sx sy) ++
  branch (ix > 0 ∧ iy > 0 ∧ iz < ez) (sub2ind_3D (sub32 ix 1) (sub32 iy 1) (add32 iz 1) sx sy) ++
  branch (ix > 0 ∧ iy < ey ∧ iz > 0) (sub2ind_3D (sub32 ix 1) (add32 iy 1) (sub32 iz 1) sx sy) ++
  branch (ix < ex ∧ iy > 0 ∧ iz > 0) (sub2ind_3D (add32 ix 1) (sub32 iy 1) (sub32 iz 1) sx sy) ++
  branch (ix > 0 ∧ iy < ey ∧ iz < ez) (sub2ind_3D (sub32 ix 1) (add32 iy 1) (add32 iz 1) sx sy) ++
  branch (ix < ex ∧ iy > 0 ∧ iz < ez) (sub2ind_3D (add32 ix 1) (sub32 iy 1) (add32 iz 1) sx sy) ++
  branch (ix < ex ∧ iy < ey ∧ iz > 0) (sub2ind_3D (add32 ix 1) (add32 iy 1) (sub32 iz 1) sx sy) ++
  branch (ix < ex ∧ iy < ey ∧ iz < ez) (sub2ind_3D (add32 ix 1) (add32 iy 1) (add32 iz 1) sx sy)

/-- The indices `j` read while the voxel at linear index `i` is visited
(`tie(ix, iy, iz) = ind2sub_3D(i, size_x, size_y)` and the 26 branches). -/
def neighbor_reads (g : Grid) (i : Nat) : List Nat :=
  jumps g.size_x g.size_y (end_x g) (end_y g) (end_z g)
    (ind2sub_3D i g.size_x g.size_y).1
    (ind2sub_3D i g.size_x g.size_y).2.1
    (ind2sub_3D i g.size_x g.size_y).2.2

/-- The effect of visiting voxel `i` on `set_neighbors` (a `set<uint32_t>`):
every branch performs `set_neighbors.insert(*(nii_input_data + j))`. -/
def visit_voxel (g : Grid) (i : Nat) (set_neighbors : List Nat) : List Nat :=
  (neighbor_reads g i).foldl (fun s j => set_insert (toU32 (g.at j)) s) set_neighbors

/-- The inner loop for one label `k` with row index `c`: returns the updated
`idx_label` buffer and the accumulated `set_neighbors`. -/
def scan_label (g : Grid) (k c : Int) (idx_label : List Int) : List Int × List Nat :=
  (voi_seq g).foldl
    (fun st i => if g.at i = k then (st.1.set i c, visit_voxel g i st.2) else st)
    (idx_label, [])

/-- The variables that live across the iterations of the loop over the labels. -/
structure Discovery where
  idx_label : List Int
  vec_neighbors : List (List Int)
  max_nr_neighbors : Nat
  c : Int

/-- One iteration of `for (int k : set_labels)`. -/
def label_step (g : Grid) (st : Discovery) (k : Int) : Discovery :=
  let r := scan_label g k st.c st.idx_label
  let s := set_erase (toU32 k) (set_erase (toU32 0) r.2)
  { idx_label := r.1
    vec_neighbors := st.vec_neighbors ++ [s.map toI32]
    max_nr_neighbors :=
      if st.max_nr_neighbors < s.length then s.length % 4294967296
      else st.max_nr_neighbors
    c := st.c + 1 }

/-- The buffer `idx_label`: a copy of the input whose first `nr_voxels` cells
are set to zero. -/
def idx_label_init (g : Grid) : List Int :=
  (List.range (nr_voxels g)).foldl (fun b i => b.set i 0) g.data

/-- The state after the loop over all labels. -/
def discovery (g : Grid) : Discovery :=
  (set_labels g).foldl (label_step g) ⟨idx_label_init g, [], 0, 0⟩

/-- The table `vec_neighbors` after the loop. -/
def vec_neighbors (g : Grid) : List (List Int) := (discovery g).vec_neighbors

/-- The variable `max_nr_neighbors` after the loop. -/
def max_nr_neighbors (g : Grid) : Nat := (discovery g).max_nr_neighbors

/-- The buffer `idx_label` after the loop. -/
def idx_label (g : Grid) : List Int := (discovery g).idx_label

/-! ## The 4D output -/

/-- The trailing dimension `dim[4] = max_nr_neighbors + 1`. -/
def dim4 (g : Grid) : Nat := add32 (max_nr_neighbors g) 1

/-- The element count `nvox = nr_voxels * (max_nr_neighbors + 1)`. -/
def nvox (g : Grid) : Nat := mul32 (nr_voxels g) (add32 (max_nr_neighbors g) 1)

/-- The body of the packing loop for the voxel at linear index `i`. -/
def pack_voxel (g : Grid) (out : List Int) (i : Nat) : List Int :=
  let out1 := out.set i (g.at i)
  let j := toU32 ((idx_label g).getD i 0)
  let row := (vec_neighbors g).getD j []
  (List.range row.length).foldl
    (fun o (m : Nat) => o.set (mul32 (nr_voxels g) (toU32 ((m : Int) + 1)) + i) (row.getD m 0))
    out1

/-- The buffer `nii_output_data`: `calloc` followed by the packing loop. -/
def output (g : Grid) : List Int :=
  (voi_seq g).foldl (pack_voxel g) (List.replicate (nvox g) 0)

/-! ## Auxiliary definitions used in the statements -/

/-- The nonzero positions of the grid, in increasing order. -/
def nonzero_positions (g : Grid) : List Nat :=
  (List.range (nr_voxels g)).filter (fun i => decide (g.at i ≠ 0))

/-- The accumulator `set_neighbors` at the end of the inner loop for label `k`
(the second component of `scan_label`). -/
def neighbor_set (g : Grid) (k : Int) : List Nat :=
  (voi_seq g).foldl (fun s i => if g.at i = k then visit_voxel g i s else s) []

/-- The row pushed onto `vec_neighbors` for label `k`: the accumulator after
`erase(0)` and `erase(k)`, copied into a `vector<int>`. -/
def row_of (g : Grid) (k : Int) : List Int :=
  (set_erase (toU32 k) (set_erase (toU32 0) (neighbor_set g k))).map toI32

/-- A step along one axis: one voxel back, none, or one voxel forward. -/
inductive Move where
  | back
  | stay
  | fwd
deriving DecidableEq

/-- The guard under which a step is taken: `i > 0` for a step back, `i < e`
(with `e` the `end_` constant of the axis) for a step forward. -/
def Move.ok : Move → Nat → Nat → Prop
  | .back, i, _ => i > 0
  | .stay, _, _ => True
  | .fwd, i, e => i < e

/-- The coordinate after the step, in `uint32_t` arithmetic. -/
def Move.app : Move → Nat → Nat
  | .back, i => sub32 i 1
  | .stay, i => i
  | .fwd, i => add32 i 1

/-- The grids the program is meant for: the buffer has one cell per voxel, the
voxel count fits `uint32_t`, and every cell holds an `int32_t` value. -/
def WellFormed (g : Grid) : Prop :=
  g.data.length = g.size_x * g.size_y * g.size_z ∧
  g.size_x * g.size_y * g.size_z < 4294967296 ∧
  ∀ v ∈ g.data, -2147483648 ≤ v ∧ v < 2147483648

instance (g : Grid) : Decidable (WellFormed g) := by
  unfold WellFormed; infer_instance

/-- Two linear indices whose `x`, `y` and `z` coordinates each differ by at
most one. -/
def Adjacent (g : Grid) (p q : Nat) : Prop :=
  (ind2sub_3D p g.size_x g.size_y).1 ≤ (ind2sub_3D q g.size_x g.size_y).1 + 1 ∧
  (ind2sub_3D q g.size_x g.size_y).1 ≤ (ind2sub_3D p g.size_x g.size_y).1 + 1 ∧
  (ind2sub_3D p g.size_x g.size_y).2.1 ≤ (ind2sub_3D q g.size_x g.size_y).2.1 + 1 ∧
  (ind2sub_3D q g.size_x g.size_y).2.1 ≤ (ind2sub_3D p g.size_x g.size_y).2.1 + 1 ∧
  (ind2sub_3D p g.size_x g.size_y).2.2 ≤ (ind2sub_3D q g.size_x g.size_y).2.2 + 1 ∧
  (ind2sub_3D q g.size_x g.size_y).2.2 ≤ (ind2sub_3D p g.size_x g.size_y).2.2 + 1

instance (g : Grid) (p q : Nat) : Decidable (Adjacent g p q) := by
  unfold Adjacent; infer_instance

/-- The largest row length, `0` when there is no row. -/
def max_row_length (g : Grid) : Nat :=
  ((vec_neighbors g).map List.length).foldr max 0

/-- The value the packing loop stores for voxel `i` in channel `ch`: the label
in channel `0`, the `(ch-1)`-th element of the label's row in channel `ch`. -/
def cell_value (g : Grid) (i ch : Nat) : Int :=
  if ch = 0 then g.at i else (row_of g (g.at i)).getD (ch - 1) 0

/-- The offset of a step along one axis. -/
def Move.off : Move → Int
  | .back => -1
  | .stay => 0
  | .fwd => 1

instance (m : Move) (i e : Nat) : Decidable (m.ok i e) := by
  cases m <;> unfold Move.ok <;> infer_instance

/-- The steps `(x, y, z)` of the 26 branches of the loop body, in source order
(six 1-jump, twelve 2-jump and eight 3-jump branches). -/
def branch_moves : List (Move × Move × Move) :=
  [
   (.back, .stay, .stay), (.fwd, .stay, .stay), (.stay, .back, .stay),
   (.stay, .fwd, .stay), (.stay, .stay, .back), (.stay, .stay, .fwd),
   (.back, .back, .stay), (.back, .fwd, .stay), (.fwd, .back, .stay),
   (.fwd, .fwd, .stay), (.stay, .back, .back), (.stay, .back, .fwd),
   (.stay, .fwd, .back), (.stay, .fwd, .fwd), (.back, .stay, .back),
   (.fwd, .stay, .back), (.back, .stay, .fwd), (.fwd, .stay, .fwd),
   (.back, .back, .back), (.back, .back, .fwd), (.back, .fwd, .back),
   (.fwd, .back, .back), (.back, .fwd, .fwd), (.fwd, .back, .fwd),
   (.fwd, .fwd, .back), (.fwd, .fwd, .fwd)]

/-- The branch of the loop body that takes the steps `m`: its guard and the
index it reads. -/
def move_read (sx sy ex ey ez ix iy iz : Nat) (m : Move × Move × Move) : Option Nat :=
  if m.1.ok ix ex ∧ m.2.1.ok iy ey ∧ m.2.2.ok iz ez then
    some (sub2ind_3D (m.1.app ix) (m.2.1.app iy) (m.2.2.app iz) sx sy)
  else none

/-- The 26 neighbour offsets of the specification: `{-1,0,1}^3` without
`(0,0,0)`. -/
def offsets26 : List (Int × Int × Int) :=
  (List.product [-1, 0, 1] (List.product [-1, 0, 1] [-1, 0, 1])).filter
    (fun d => decide (d ≠ (0, 0, 0)))

/-- The neighbour of `(ix, iy, iz)` at offset `d` as the specification gives it:
skipped when it leaves the grid on any axis, else its linear index. -/
def offset_read (sx sy sz ix iy iz : Nat) (d : Int × Int × Int) : Option Nat :=
  if 0 ≤ (ix : Int) + d.1 ∧ (ix : Int) + d.1 < sx ∧
      0 ≤ (iy : Int) + d.2.1 ∧ (iy : Int) + d.2.1 < sy ∧
      0 ≤ (iz : Int) + d.2.2 ∧ (iz : Int) + d.2.2 < sz then
    some (sub2ind_3D ((ix : Int) + d.1).toNat ((iy : Int) + d.2.1).toNat
      ((iz : Int) + d.2.2).toNat sx sy)
  else none

/-- The generic clipped neighbourhood of the specification: the linear indices
`sub2ind_3D(ix+dx, iy+dy, iz+dz)` over the 26 offsets that stay inside the
grid. -/
def clipped_neighbourhood (sx sy sz ix iy iz : Nat) : List Nat :=
  offsets26.filterMap (offset_read sx sy sz ix iy iz)

/-- The voxels that pass the test `*(nii_input_data + i) == k` in the iteration
of the per-label loop for label `k`, in the order they are visited. -/
def visits (g : Grid) (k : Int) : List Nat :=
  (voi_seq g).filter (fun i => decide (g.at i = k))

/-- The inner loop of `scan_label` with a ghost log: every execution of the
assignment `*(idx_label_data + i) = c` appends the pair `(i, c)` to `log`. -/
def scan_label_logged (g : Grid) (k c : Int) (idx_label : List Int)
    (log : List (Nat × Int)) : (List Int × List Nat) × List (Nat × Int) :=
  (voi_seq g).foldl
    (fun st i =>
      if g.at i = k then ((st.1.1.set i c, visit_voxel g i st.1.2), st.2 ++ [(i, c)])
      else st)
    ((idx_label, []), log)

/-- One iteration of `for (int k : set_labels)` carrying the ghost log. -/
def label_step_logged (g : Grid) (st : Discovery × List (Nat × Int)) (k : Int) :
    Discovery × List (Nat × Int) :=
  let r := scan_label_logged g k st.1.c st.1.idx_label st.2
  let s := set_erase (toU32 k) (set_erase (toU32 0) r.1.2)
  ({ idx_label := r.1.1
     vec_neighbors := st.1.vec_neighbors ++ [s.map toI32]
     max_nr_neighbors :=
       if st.1.max_nr_neighbors < s.length then s.length % 4294967296
       else st.1.max_nr_neighbors
     c := st.1.c + 1 }, r.2)

/-- The loop over all labels carrying the ghost log, started with an empty
log. -/
def discovery_logged (g : Grid) : Discovery × List (Nat × Int) :=
  (set_labels g).foldl (label_step_logged g) (⟨idx_label_init g, [], 0, 0⟩, [])

/-- The assignments made by the iterations for the labels `l`, the first of
which has row index `c`. -/
def visit_log (g : Grid) : List Int → Int → List (Nat × Int)
  | [], _ => []
  | k :: ks, c => (visits g k).map (fun i => (i, c)) ++ visit_log g ks (c + 1)

theorem toU32_lt (v : Int) : toU32 v < 4294967296 := by
  unfold toU32; omega

theorem toU32_toI32 (n : Nat) (h : n < 4294967296) : toU32 (toI32 n) = n := by
  unfold toU32 toI32; split <;> omega

theorem toI32_toU32 (v : Int) (h1 : -2147483648 ≤ v) (h2 : v < 2147483648) :
    toI32 (toU32 v) = v := by
  unfold toU32 toI32; split <;> omega

theorem toI32_range (n : Nat) : -2147483648 ≤ toI32 n ∧ toI32 n < 2147483648 := by
  unfold toI32; split <;> omega

theorem toI32_eq_zero (n : Nat) (h : n < 4294967296) : toI32 n = 0 ↔ n = 0 := by
  unfold toI32; split <;> omega

theorem toI32_of_lt (n : Nat) (h : n < 2147483648) : toI32 n = (n : Int) := by
  unfold toI32; split <;> omega

theorem toU32_natCast (n : Nat) (h : n < 4294967296) : toU32 (n : Int) = n := by
  unfold toU32; omega

theorem mul32_lt (a b : Nat) : mul32 a b < 4294967296 := by
  unfold mul32; omega

theorem nr_voxels_lt (g : Grid) : nr_voxels g < 4294967296 := mul32_lt _ _

/-! ## Facts about the ordered sets -/

section SetLemmas

variable {α : Type} [LinearOrder α]

theorem mem_set_insert (x v : α) (s : List α) :
    x ∈ set_insert v s ↔ x = v ∨ x ∈ s := by
  induction s with
  | nil => simp [set_insert]
  | cons y ys ih =>
    unfold set_insert
    split
    · simp
    · split
      · rename_i h; subst h; simp
      · simp [ih]; tauto

theorem set_insert_sorted (v : α) (s : List α) (hs : s.Pairwise (· < ·)) :
    (set_insert v s).Pairwise (· < ·) := by
  induction s with
  | nil => simp [set_insert]
  | cons y ys ih =>
    unfold set_insert
    rw [List.pairwise_cons] at hs
    split
    · rename_i h
      refine List.pairwise_cons.2 ⟨?_, List.pairwise_cons.2 hs⟩
      intro a ha
      rcases List.mem_cons.1 ha with rfl | ha
      · exact h
      · exact lt_trans h (hs.1 a ha)
    · split
      · exact List.pairwise_cons.2 hs
      · rename_i h1 h2
        refine List.pairwise_cons.2 ⟨?_, ih hs.2⟩
        intro a ha
        rcases (mem_set_insert a v ys).1 ha with rfl | ha
        · exact lt_of_le_of_ne (not_lt.1 h1) (fun h => h2 h.symm)
        · exact hs.1 a ha

theorem mem_set_erase (x v : α) (s : List α) :
    x ∈ set_erase v s ↔ x ∈ s ∧ x ≠ v := by
  simp [set_erase]

theorem set_erase_sorted (v : α) (s : List α) (hs : s.Pairwise (· < ·)) :
    (set_erase v s).Pairwise (· < ·) :=
  hs.sublist (List.filter_sublist s)

theorem mem_foldl_set_insert {β : Type} (f : β → α) (l : List β) (s : List α) (x : α) :
    x ∈ l.foldl (fun s b => set_insert (f b) s) s ↔ x ∈ s ∨ ∃ b ∈ l, x = f b := by
  induction l generalizing s with
  | nil => simp
  | cons b bs ih =>
    simp only [List.foldl_cons, ih, mem_set_insert, List.mem_cons]
    constructor
    · rintro ((h | h) | ⟨b', hb', h⟩)
      · exact Or.inr ⟨b, Or.inl rfl, h⟩
      · exact Or.inl h
      · exact Or.inr ⟨b', Or.inr hb', h⟩
    · rintro (h | ⟨b', rfl | hb', h⟩)
      · exact Or.inl (Or.inr h)
      · exact Or.inl (Or.inl h)
      · exact Or.inr ⟨b', hb', h⟩

theorem foldl_set_insert_sorted {β : Type} (f : β → α) (l : List β) (s : List α)
    (hs : s.Pairwise (· < ·)) :
    (l.foldl (fun s b => set_insert (f b) s) s).Pairwise (· < ·) := by
  induction l generalizing s with
  | nil => simpa using hs
  | cons b bs ih => exact ih _ (set_insert_sorted _ _ hs)

end SetLemmas

/-! ## Facts about the voxels of interest -/

theorem count_scan (p : Nat → Prop) [DecidablePred p] (l : List Nat) (n0 : Nat) :
    l.foldl (fun n i => if p i then add32 n 1 else n) (n0 % 4294967296)
      = (n0 + (l.filter (fun i => decide (p i))).length) % 4294967296 := by
  induction l generalizing n0 with
  | nil => simp
  | cons a as ih =>
    simp only [List.foldl_cons, List.filter_cons]
    by_cases h : p a
    · have e : add32 (n0 % 4294967296) 1 = (n0 + 1) % 4294967296 := by
        unfold add32; omega
      simp only [h, if_true, decide_True, e, ih, List.length_cons]
      congr 1; omega
    · simp only [h, if_false, decide_False, ih]
      rfl

theorem nonzero_positions_length_le (g : Grid) :
    (nonzero_positions g).length ≤ nr_voxels g := by
  unfold nonzero_positions
  calc _ ≤ (List.range (nr_voxels g)).length := List.length_filter_le _ _
    _ = nr_voxels g := List.length_range _

theorem nr_voi_eq (g : Grid) : nr_voi g = (nonzero_positions g).length := by
  have h := count_scan (fun i => g.at i ≠ 0) (List.range (nr_voxels g)) 0
  have h1 := nonzero_positions_length_le g
  have h2 := nr_voxels_lt g
  unfold nr_voi
  simp only [Nat.zero_mod, Nat.zero_add] at h
  rw [h]
  exact Nat.mod_eq_of_lt (lt_of_le_of_lt h1 h2)

theorem fill_scan (p : Nat → Prop) [DecidablePred p] (l : List Nat) (pre : List Int) (r : Nat)
    (hlen : pre.length + (l.filter (fun i => decide (p i))).length < 4294967296)
    (hr : (l.filter (fun i => decide (p i))).length ≤ r) :
    l.foldl (fun (st : List Int × Nat) i =>
        if p i then (st.1.set st.2 (toI32 i), add32 st.2 1) else st)
        (pre ++ List.replicate r 0, pre.length)
      = (pre ++ (l.filter (fun i => decide (p i))).map toI32
            ++ List.replicate (r - (l.filter (fun i => decide (p i))).length) 0,
          pre.length + (l.filter (fun i => decide (p i))).length) := by
  induction l generalizing pre r with
  | nil => simp
  | cons a as ih =>
    simp only [List.foldl_cons, List.filter_cons] at hlen hr ⊢
    by_cases h : p a
    · simp only [h, if_true, decide_True, List.length_cons] at hlen hr ⊢
      obtain ⟨r', rfl⟩ : ∃ r', r = r' + 1 := ⟨r - 1, by omega⟩
      have e1 : (pre ++ List.replicate (r' + 1) (0 : Int)).set pre.length (toI32 a)
          = (pre ++ [toI32 a]) ++ List.replicate r' 0 := by
        rw [List.set_append_right _ _ (le_refl _)]
        simp [List.replicate_succ]
      have e2 : add32 pre.length 1 = (pre ++ [toI32 a]).length := by
        unfold add32; simp only [List.length_append, List.length_singleton]; omega
      rw [e1, e2, ih (pre ++ [toI32 a]) r' (by simp; omega) (by omega)]
      refine Prod.ext ?_ ?_
      · simp [List.append_assoc]
      · simp only [List.length_append, List.length_singleton]; omega
    · simp only [h, if_false, decide_False] at hlen hr ⊢
      exact ih pre r hlen hr

theorem voi_fill_eq (g : Grid) :
    voi_fill g = ((nonzero_positions g).map toI32, nr_voi g) := by
  have h := fill_scan (fun i => g.at i ≠ 0) (List.range (nr_voxels g)) [] (nr_voi g)
  have h1 := nonzero_positions_length_le g
  have h2 := nr_voxels_lt g
  have h3 := nr_voi_eq g
  unfold nonzero_positions at h1 h3
  unfold voi_fill nonzero_positions
  simp only [List.nil_append, List.length_nil, Nat.zero_add] at h
  rw [h (by omega) (by omega), h3]
  simp

theorem voi_id_eq (g : Grid) : voi_id g = (nonzero_positions g).map toI32 := by
  unfold voi_id; rw [voi_fill_eq]

theorem mem_nonzero_positions (g : Grid) (i : Nat) :
    i ∈ nonzero_positions g ↔ i < nr_voxels g ∧ g.at i ≠ 0 := by
  simp [nonzero_positions]

theorem map_range_getD (l : List Nat) :
    (List.range l.length).map (fun ii => l.getD ii 0) = l := by
  apply List.ext_getElem
  · simp
  · intro n h1 h2
    simp only [List.getElem_map, List.getElem_range]
    exact List.getD_eq_getElem _ _ h2

theorem voi_seq_eq (g : Grid) : voi_seq g = nonzero_positions g := by
  unfold voi_seq
  rw [voi_id_eq, nr_voi_eq]
  conv_rhs => rw [← map_range_getD (nonzero_positions g)]
  apply List.map_congr_left
  intro ii hii
  have hlt : ii < (nonzero_positions g).length := List.mem_range.1 hii
  rw [List.getD_eq_getElem _ _ (by simpa using hlt), List.getD_eq_getElem _ _ hlt,
    List.getElem_map]
  apply toU32_toI32
  have hm : (nonzero_positions g)[ii] ∈ nonzero_positions g := List.getElem_mem _
  have := ((mem_nonzero_positions g _).1 hm).1
  have := nr_voxels_lt g
  omega

theorem nonzero_positions_sorted (g : Grid) :
    (nonzero_positions g).Pairwise (· < ·) :=
  (List.pairwise_lt_range _).sublist (List.filter_sublist _)

/-! ## Facts about the label set -/

theorem mem_set_labels (g : Grid) (k : Int) :
    k ∈ set_labels g ↔ ∃ i, i < nr_voxels g ∧ g.at i ≠ 0 ∧ g.at i = k := by
  unfold set_labels
  rw [mem_foldl_set_insert, voi_seq_eq]
  simp only [List.not_mem_nil, false_or, mem_nonzero_positions]
  constructor
  · rintro ⟨i, ⟨h1, h2⟩, rfl⟩; exact ⟨i, h1, h2, rfl⟩
  · rintro ⟨i, h1, h2, rfl⟩; exact ⟨i, ⟨h1, h2⟩, rfl⟩

theorem set_labels_sorted (g : Grid) : (set_labels g).Pairwise (· < ·) :=
  foldl_set_insert_sorted _ _ _ List.Pairwise.nil

/-! ## Facts about the loop over the labels -/

theorem scan_snd (g : Grid) (k c : Int) (l : List Nat) (idx : List Int) (s : List Nat) :
    (l.foldl (fun (st : List Int × List Nat) i =>
        if g.at i = k then (st.1.set i c, visit_voxel g i st.2) else st) (idx, s)).2
      = l.foldl (fun s i => if g.at i = k then visit_voxel g i s else s) s := by
  induction l generalizing idx s with
  | nil => rfl
  | cons a as ih =>
    simp only [List.foldl_cons]
    by_cases h : g.at a = k
    · simp only [h, if_true]; exact ih _ _
    · simp only [h, if_false]; exact ih _ _

theorem scan_fst (g : Grid) (k c : Int) (l : List Nat) (idx : List Int) (s : List Nat) :
    (l.foldl (fun (st : List Int × List Nat) i =>
        if g.at i = k then (st.1.set i c, visit_voxel g i st.2) else st) (idx, s)).1
      = l.foldl (fun b i => if g.at i = k then b.set i c else b) idx := by
  induction l generalizing idx s with
  | nil => rfl
  | cons a as ih =>
    simp only [List.foldl_cons]
    by_cases h : g.at a = k
    · simp only [h, if_true]; exact ih _ _
    · simp only [h, if_false]; exact ih _ _

theorem scan_label_snd (g : Grid) (k c : Int) (idx : List Int) :
    (scan_label g k c idx).2 = neighbor_set g k :=
  scan_snd g k c _ idx []

theorem label_step_vec (g : Grid) (st : Discovery) (k : Int) :
    (label_step g st k).vec_neighbors = st.vec_neighbors ++ [row_of g k] := by
  simp only [label_step, scan_label_snd, row_of]

theorem foldl_label_step_vec (g : Grid) (l : List Int) (st : Discovery) :
    (l.foldl (label_step g) st).vec_neighbors = st.vec_neighbors ++ l.map (row_of g) := by
  induction l generalizing st with
  | nil => simp
  | cons k ks ih =>
    simp only [List.foldl_cons, ih, label_step_vec, List.map_cons, List.append_assoc,
      List.singleton_append]

theorem vec_neighbors_eq (g : Grid) :
    vec_neighbors g = (set_labels g).map (row_of g) := by
  unfold vec_neighbors discovery
  rw [foldl_label_step_vec]
  simp

theorem mem_visit_voxel (g : Grid) (i : Nat) (s : List Nat) (u : Nat) :
    u ∈ visit_voxel g i s ↔ u ∈ s ∨ ∃ j ∈ neighbor_reads g i, u = toU32 (g.at j) := by
  unfold visit_voxel
  exact mem_foldl_set_insert (fun j => toU32 (g.at j)) _ _ _

theorem visit_voxel_sorted (g : Grid) (i : Nat) (s : List Nat) (hs : s.Pairwise (· < ·)) :
    (visit_voxel g i s).Pairwise (· < ·) := by
  unfold visit_voxel
  exact foldl_set_insert_sorted (fun j => toU32 (g.at j)) _ _ hs

theorem mem_scan_set (g : Grid) (k : Int) (l : List Nat) (s : List Nat) (u : Nat) :
    u ∈ l.foldl (fun s i => if g.at i = k then visit_voxel g i s else s) s ↔
      u ∈ s ∨ ∃ i ∈ l, g.at i = k ∧ ∃ j ∈ neighbor_reads g i, u = toU32 (g.at j) := by
  induction l generalizing s with
  | nil => simp
  | cons a as ih =>
    simp only [List.foldl_cons, ih, List.mem_cons]
    by_cases h : g.at a = k
    · simp only [h, if_true, mem_visit_voxel]
      constructor
      · rintro ((h1 | h1) | ⟨i, hi, h2⟩)
        · exact Or.inl h1
        · exact Or.inr ⟨a, Or.inl rfl, h, h1⟩
        · exact Or.inr ⟨i, Or.inr hi, h2⟩
      · rintro (h1 | ⟨i, rfl | hi, h2⟩)
        · exact Or.inl (Or.inl h1)
        · exact Or.inl (Or.inr h2.2)
        · exact Or.inr ⟨i, hi, h2⟩
    · simp only [h, if_false]
      constructor
      · rintro (h1 | ⟨i, hi, h2⟩)
        · exact Or.inl h1
        · exact Or.inr ⟨i, Or.inr hi, h2⟩
      · rintro (h1 | ⟨i, rfl | hi, h2⟩)
        · exact Or.inl h1
        · exact absurd h2.1 h
        · exact Or.inr ⟨i, hi, h2⟩

theorem scan_set_sorted (g : Grid) (k : Int) (l : List Nat) (s : List Nat)
    (hs : s.Pairwise (· < ·)) :
    (l.foldl (fun s i => if g.at i = k then visit_voxel g i s else s) s).Pairwise (· < ·) := by
  induction l generalizing s with
  | nil => simpa using hs
  | cons a as ih =>
    simp only [List.foldl_cons]
    by_cases h : g.at a = k
    · simp only [h, if_true]; exact ih _ (visit_voxel_sorted g a s hs)
    · simp only [h, if_false]; exact ih _ hs

theorem mem_neighbor_set (g : Grid) (k : Int) (u : Nat) :
    u ∈ neighbor_set g k ↔
      ∃ i, i < nr_voxels g ∧ g.at i ≠ 0 ∧ g.at i = k ∧
        ∃ j ∈ neighbor_reads g i, u = toU32 (g.at j) := by
  unfold neighbor_set
  rw [mem_scan_set, voi_seq_eq]
  simp only [List.not_mem_nil, false_or, mem_nonzero_positions]
  constructor
  · rintro ⟨i, ⟨h1, h2⟩, h3⟩; exact ⟨i, h1, h2, h3⟩
  · rintro ⟨i, h1, h2, h3⟩; exact ⟨i, ⟨h1, h2⟩, h3⟩

theorem neighbor_set_sorted (g : Grid) (k : Int) : (neighbor_set g k).Pairwise (· < ·) :=
  scan_set_sorted g k _ [] List.Pairwise.nil

theorem neighbor_set_lt (g : Grid) (k : Int) (u : Nat) (hu : u ∈ neighbor_set g k) :
    u < 4294967296 := by
  obtain ⟨i, _, _, _, j, _, rfl⟩ := (mem_neighbor_set g k u).1 hu
  exact toU32_lt _

theorem mem_row_of (g : Grid) (k v : Int) :
    v ∈ row_of g k ↔ ∃ u ∈ neighbor_set g k, u ≠ 0 ∧ u ≠ toU32 k ∧ toI32 u = v := by
  unfold row_of
  simp only [List.mem_map, mem_set_erase]
  have h0 : toU32 0 = 0 := by decide
  rw [h0]
  constructor
  · rintro ⟨u, ⟨⟨h1, h2⟩, h3⟩, h4⟩; exact ⟨u, h1, h2, h3, h4⟩
  · rintro ⟨u, h1, h2, h3, h4⟩; exact ⟨u, ⟨⟨h1, h2⟩, h3⟩, h4⟩

theorem row_at (g : Grid) (c : Nat) (k : Int) (hk : (set_labels g)[c]? = some k) :
    (vec_neighbors g)[c]? = some (row_of g k) := by
  rw [vec_neighbors_eq, List.getElem?_map, hk]
  rfl

/-! ## Geometry of the 26 branches -/

theorem mem_branch (c : Prop) [Decidable c] (a j : Nat) : j ∈ branch c a ↔ c ∧ j = a := by
  unfold branch; split <;> simp [*]

set_option maxRecDepth 4000 in
theorem mem_jumps_sound (sx sy ex ey ez ix iy iz j : Nat)
    (h : j ∈ jumps sx sy ex ey ez ix iy iz) :
    ∃ mx my mz : Move, (mx ≠ .stay ∨ my ≠ .stay ∨ mz ≠ .stay) ∧
      mx.ok ix ex ∧ my.ok iy ey ∧ mz.ok iz ez ∧
      j = sub2ind_3D (mx.app ix) (my.app iy) (mz.app iz) sx sy := by
  simp only [jumps, List.mem_append, mem_branch, or_assoc] at h
  rcases h with ⟨hx, hj⟩ | h
  · exact ⟨.back, .stay, .stay, by decide, hx, trivial, trivial, hj⟩
  rcases h with ⟨hx, hj⟩ | h
  · exact ⟨.fwd, .stay, .stay, by decide, hx, trivial, trivial, hj⟩
  rcases h with ⟨hy, hj⟩ | h
  · exact ⟨.stay, .back, .stay, by decide, trivial, hy, trivial, hj⟩
  rcases h with ⟨hy, hj⟩ | h
  · exact ⟨.stay, .fwd, .stay, by decide, trivial, hy, trivial, hj⟩
  rcases h with ⟨hz, hj⟩ | h
  · exact ⟨.stay, .stay, .back, by decide, trivial, trivial, hz, hj⟩
  rcases h with ⟨hz, hj⟩ | h
  · exact ⟨.stay, .stay, .fwd, by decide, trivial, trivial, hz, hj⟩
  rcases h with ⟨⟨hx, hy⟩, hj⟩ | h
  · exact ⟨.back, .back, .stay, by decide, hx, hy, trivial, hj⟩
  rcases h with ⟨⟨hx, hy⟩, hj⟩ | h
  · exact ⟨.back, .fwd, .stay, by decide, hx, hy, trivial, hj⟩
  rcases h with ⟨⟨hx, hy⟩, hj⟩ | h
  · exact ⟨.fwd, .back, .stay, by decide, hx, hy, trivial, hj⟩
  rcases h with ⟨⟨hx, hy⟩, hj⟩ | h
  · exact ⟨.fwd, .fwd, .stay, by decide, hx, hy, trivial, hj⟩
  rcases h with ⟨⟨hy, hz⟩, hj⟩ | h
  · exact ⟨.stay, .back, .back, by decide, trivial, hy, hz, hj⟩
  rcases h with ⟨⟨hy, hz⟩, hj⟩ | h
  · exact ⟨.stay, .back, .fwd, by decide, trivial, hy, hz, hj⟩
  rcases h with ⟨⟨hy, hz⟩, hj⟩ | h
  · exact ⟨.stay, .fwd, .back, by decide, trivial, hy, hz, hj⟩
  rcases h with ⟨⟨hy, hz⟩, hj⟩ | h
  · exact ⟨.stay, .fwd, .fwd, by decide, trivial, hy, hz, hj⟩
  rcases h with ⟨⟨hx, hz⟩, hj⟩ | h
  · exact ⟨.back, .stay, .back, by decide, hx, trivial, hz, hj⟩
  rcases h with ⟨⟨hx, hz⟩, hj⟩ | h
  · exact ⟨.fwd, .stay, .back, by decide, hx, trivial, hz, hj⟩
  rcases h with ⟨⟨hx, hz⟩, hj⟩ | h
  · exact ⟨.back, .stay, .fwd, by decide, hx, trivial, hz, hj⟩
  rcases h with ⟨⟨hx, hz⟩, hj⟩ | h
  · exact ⟨.fwd, .stay, .fwd, by decide, hx, trivial, hz, hj⟩
  rcases h with ⟨⟨hx, hy, hz⟩, hj⟩ | h
  · exact ⟨.back, .back, .back, by decide, hx, hy, hz, hj⟩
  rcases h with ⟨⟨hx, hy, hz⟩, hj⟩ | h
  · exact ⟨.back, .back, .fwd, by decide, hx, hy, hz, hj⟩
  rcases h with ⟨⟨hx, hy, hz⟩, hj⟩ | h
  · exact ⟨.back, .fwd, .back, by decide, hx, hy, hz, hj⟩
  rcases h with ⟨⟨hx, hy, hz⟩, hj⟩ | h
  · exact ⟨.fwd, .back, .back, by decide, hx, hy, hz, hj⟩
  rcases h with ⟨⟨hx, hy, hz⟩, hj⟩ | h
  · exact ⟨.back, .fwd, .fwd, by decide, hx, hy, hz, hj⟩
  rcases h with ⟨⟨hx, hy, hz⟩, hj⟩ | h
  · exact ⟨.fwd, .back, .fwd, by decide, hx, hy, hz, hj⟩
  rcases h with ⟨⟨hx, hy, hz⟩, hj⟩ | h
  · exact ⟨.fwd, .fwd, .back, by decide, hx, hy, hz, hj⟩
  obtain ⟨⟨hx, hy, hz⟩, hj⟩ := h
  exact ⟨.fwd, .fwd, .fwd, by decide, hx, hy, hz, hj⟩

set_option maxRecDepth 4000 in
theorem mem_jumps_complete (sx sy ex ey ez ix iy iz : Nat) (mx my mz : Move)
    (hne : mx ≠ .stay ∨ my ≠ .stay ∨ mz ≠ .stay)
    (hx : mx.ok ix ex) (hy : my.ok iy ey) (hz : mz.ok iz ez) :
    sub2ind_3D (mx.app ix) (my.app iy) (mz.app iz) sx sy ∈ jumps sx sy ex ey ez ix iy iz := by
  cases mx <;> cases my <;> cases mz <;>
    simp only [Move.ok, Move.app, ne_eq, not_true_eq_false, or_self, or_false, false_or] at hne hx hy hz ⊢ <;>
    simp only [jumps, List.mem_append, mem_branch, hx, hy, hz, and_self, true_and, true_or, or_true]

/-! ## Well-formed grids and the index arithmetic -/

theorem nr_voxels_eq (g : Grid) (h : g.size_x * g.size_y * g.size_z < 4294967296) :
    nr_voxels g = g.size_x * g.size_y * g.size_z := by
  unfold nr_voxels mul32
  rw [Nat.mul_mod, Nat.mod_mod, ← Nat.mul_mod]
  have e : g.size_z * g.size_y * g.size_x = g.size_x * g.size_y * g.size_z := by ring
  rw [e]
  exact Nat.mod_eq_of_lt h

theorem WellFormed.length_eq {g : Grid} (h : WellFormed g) :
    g.data.length = nr_voxels g := by
  rw [nr_voxels_eq g h.2.1]; exact h.1

theorem WellFormed.at_range {g : Grid} (h : WellFormed g) (i : Nat) :
    -2147483648 ≤ g.at i ∧ g.at i < 2147483648 := by
  unfold Grid.at
  by_cases hi : i < g.data.length
  · rw [List.getD_eq_getElem _ _ hi]
    exact h.2.2 _ (List.getElem_mem _)
  · rw [List.getD_eq_default _ _ (not_lt.1 hi)]
    decide

/-- The linear index of in-bounds coordinates, without wrap-around. -/
theorem lin_lt (sx sy sz x y z : Nat) (hx : x < sx) (hy : y < sy) (hz : z < sz) :
    sx * sy * z + sx * y + x < sx * sy * sz := by
  have h1 : sx * y + x < sx * sy := by
    calc sx * y + x < sx * y + sx := by omega
      _ = sx * (y + 1) := by ring
      _ ≤ sx * sy := Nat.mul_le_mul_left _ hy
  calc sx * sy * z + sx * y + x < sx * sy * z + sx * sy := by omega
    _ = sx * sy * (z + 1) := by ring
    _ ≤ sx * sy * sz := Nat.mul_le_mul_left _ hz

theorem sub2ind_eq (sx sy sz x y z : Nat) (hx : x < sx) (hy : y < sy) (hz : z < sz)
    (hn : sx * sy * sz < 4294967296) :
    sub2ind_3D x y z sx sy = sx * sy * z + sx * y + x := by
  have h := lin_lt sx sy sz x y z hx hy hz
  have h1 : sx * sy ≤ sx * sy * sz := Nat.le_mul_of_pos_right _ (by omega)
  have h2 : sx * sy * z ≤ sx * sy * z + sx * y + x := by omega
  have h3 : sx * y ≤ sx * sy * z + sx * y + x := by omega
  unfold sub2ind_3D add32 mul32
  rw [Nat.mod_eq_of_lt (a := sx * sy) (by omega),
    Nat.mod_eq_of_lt (a := sx * sy * z) (by omega),
    Nat.mod_eq_of_lt (a := sx * y) (by omega),
    Nat.mod_eq_of_lt (a := sx * sy * z + sx * y) (by omega),
    Nat.mod_eq_of_lt (by omega)]

theorem ind2sub_eq (sx sy i : Nat) (hn : sx * sy < 4294967296) :
    ind2sub_3D i sx sy = (i % (sx * sy) % sx, i % (sx * sy) / sx, i / (sx * sy)) := by
  unfold ind2sub_3D mul32
  rw [Nat.mod_eq_of_lt hn]

theorem lin_decomp (sx sy x y z : Nat) (hx : x < sx) (hy : y < sy) :
    (sx * sy * z + sx * y + x) / (sx * sy) = z ∧
    (sx * sy * z + sx * y + x) % (sx * sy) / sx = y ∧
    (sx * sy * z + sx * y + x) % (sx * sy) % sx = x := by
  have hsx : 0 < sx := by omega
  have h1 : sx * y + x < sx * sy := by
    calc sx * y + x < sx * y + sx := by omega
      _ = sx * (y + 1) := by ring
      _ ≤ sx * sy := Nat.mul_le_mul_left _ hy
  have hA : 0 < sx * sy := by omega
  have e : sx * sy * z + sx * y + x = (sx * y + x) + sx * sy * z := by ring
  rw [e, Nat.add_mul_div_left _ _ hA, Nat.add_mul_mod_self_left, Nat.div_eq_of_lt h1,
    Nat.mod_eq_of_lt h1]
  refine ⟨by omega, ?_, ?_⟩
  · rw [Nat.add_comm, Nat.add_mul_div_left _ _ hsx, Nat.div_eq_of_lt hx]; omega
  · rw [Nat.add_comm, Nat.add_mul_mod_self_left, Nat.mod_eq_of_lt hx]

theorem lin_coords (sx sy i : Nat) :
    sx * sy * (i / (sx * sy)) + sx * (i % (sx * sy) / sx) + i % (sx * sy) % sx = i := by
  have h1 := Nat.div_add_mod i (sx * sy)
  have h2 := Nat.div_add_mod (i % (sx * sy)) sx
  omega

theorem coords_lt (sx sy sz i : Nat) (hi : i < sx * sy * sz) :
    i % (sx * sy) % sx < sx ∧ i % (sx * sy) / sx < sy ∧ i / (sx * sy) < sz := by
  have hsx : 0 < sx := by
    rcases Nat.eq_zero_or_pos sx with h | h
    · subst h; simp at hi
    · exact h
  have hsy : 0 < sy := by
    rcases Nat.eq_zero_or_pos sy with h | h
    · subst h; simp at hi
    · exact h
  have hA : 0 < sx * sy := Nat.mul_pos hsx hsy
  refine ⟨Nat.mod_lt _ hsx, ?_, ?_⟩
  · rw [Nat.div_lt_iff_lt_mul hsx, Nat.mul_comm sy sx]
    exact Nat.mod_lt _ hA
  · rw [Nat.div_lt_iff_lt_mul hA, Nat.mul_comm sz (sx * sy)]
    exact hi

theorem Move.app_spec (m : Move) (i s : Nat) (hi : i < s) (hs : s < 4294967296)
    (hok : m.ok i (sub32 s 1)) :
    m.app i < s ∧ m.app i ≤ i + 1 ∧ i ≤ m.app i + 1 ∧ (m ≠ .stay → m.app i ≠ i) := by
  cases m <;> simp only [Move.ok, Move.app, sub32, add32] at hok ⊢ <;>
    refine ⟨?_, ?_, ?_, ?_⟩ <;> first | omega | simp

theorem Move.exists_of_near (i x s : Nat) (hi : i < s) (hx : x < s) (hs : s < 4294967296)
    (h1 : x ≤ i + 1) (h2 : i ≤ x + 1) :
    ∃ m : Move, m.ok i (sub32 s 1) ∧ m.app i = x ∧ (m = .stay → x = i) := by
  rcases Nat.lt_trichotomy x i with h | h | h
  · refine ⟨.back, ?_, ?_, by simp⟩ <;> simp only [Move.ok, Move.app, sub32] <;> omega
  · exact ⟨.stay, trivial, h.symm, fun _ => h⟩
  · refine ⟨.fwd, ?_, ?_, by simp⟩ <;> simp only [Move.ok, Move.app, sub32, add32] <;> omega

/-! ## The neighbour reads of a voxel -/

theorem WellFormed.coords {g : Grid} (h : WellFormed g) (i : Nat) (hi : i < nr_voxels g) :
    (ind2sub_3D i g.size_x g.size_y).1 < g.size_x ∧
    (ind2sub_3D i g.size_x g.size_y).2.1 < g.size_y ∧
    (ind2sub_3D i g.size_x g.size_y).2.2 < g.size_z ∧
    g.size_x * g.size_y * (ind2sub_3D i g.size_x g.size_y).2.2
      + g.size_x * (ind2sub_3D i g.size_x g.size_y).2.1
      + (ind2sub_3D i g.size_x g.size_y).1 = i := by
  rw [nr_voxels_eq g h.2.1] at hi
  have hz : 0 < g.size_z := by
    rcases Nat.eq_zero_or_pos g.size_z with h0 | h0
    · rw [h0] at hi; simp at hi
    · exact h0
  have hA : g.size_x * g.size_y < 4294967296 :=
    lt_of_le_of_lt (Nat.le_mul_of_pos_right _ hz) h.2.1
  rw [ind2sub_eq _ _ _ hA]
  have := coords_lt _ _ _ i hi
  exact ⟨this.1, this.2.1, this.2.2, lin_coords _ _ _⟩

theorem WellFormed.sizes_lt {g : Grid} (h : WellFormed g) (i : Nat) (hi : i < nr_voxels g) :
    g.size_x < 4294967296 ∧ g.size_y < 4294967296 ∧ g.size_z < 4294967296 ∧
    g.size_x * g.size_y < 4294967296 := by
  have hc := h.coords i hi
  have hn := h.2.1
  have hx : 0 < g.size_x := by omega
  have hy : 0 < g.size_y := by omega
  have hz : 0 < g.size_z := by omega
  have h1 : g.size_x * g.size_y ≤ g.size_x * g.size_y * g.size_z :=
    Nat.le_mul_of_pos_right _ hz
  have h2 : g.size_x ≤ g.size_x * g.size_y := Nat.le_mul_of_pos_right _ hy
  have h3 : g.size_y ≤ g.size_x * g.size_y := Nat.le_mul_of_pos_left _ hx
  have h4 : g.size_z ≤ g.size_x * g.size_y * g.size_z :=
    Nat.le_mul_of_pos_left _ (Nat.mul_pos hx hy)
  omega

/-- Every index read while voxel `i` is visited is in bounds, differs from `i`
and is adjacent to `i`. -/
theorem neighbor_reads_sound (g : Grid) (h : WellFormed g) (i j : Nat)
    (hi : i < nr_voxels g) (hj : j ∈ neighbor_reads g i) :
    j < nr_voxels g ∧ j ≠ i ∧ Adjacent g i j := by
  obtain ⟨mx, my, mz, hne, hx, hy, hz, rfl⟩ := mem_jumps_sound _ _ _ _ _ _ _ _ _ hj
  obtain ⟨cx, cy, cz, clin⟩ := h.coords i hi
  obtain ⟨sx, sy, sz, sA⟩ := h.sizes_lt i hi
  obtain ⟨ax, ax1, ax2, ax3⟩ := Move.app_spec mx _ _ cx sx hx
  obtain ⟨ay, ay1, ay2, ay3⟩ := Move.app_spec my _ _ cy sy hy
  obtain ⟨az, az1, az2, az3⟩ := Move.app_spec mz _ _ cz sz hz
  rw [sub2ind_eq _ _ _ _ _ _ ax ay az h.2.1]
  obtain ⟨dz, dy, dx⟩ := lin_decomp g.size_x g.size_y _ _ (mz.app (ind2sub_3D i g.size_x g.size_y).2.2) ax ay
  have hcj := ind2sub_eq g.size_x g.size_y
    (g.size_x * g.size_y * mz.app (ind2sub_3D i g.size_x g.size_y).2.2
      + g.size_x * my.app (ind2sub_3D i g.size_x g.size_y).2.1
      + mx.app (ind2sub_3D i g.size_x g.size_y).1) sA
  rw [dx, dy, dz] at hcj
  refine ⟨?_, ?_, ?_⟩
  · rw [nr_voxels_eq g h.2.1]; exact lin_lt _ _ _ _ _ _ ax ay az
  · intro e
    rw [e] at hcj
    have e1 := congrArg Prod.fst hcj
    have e2 := congrArg (fun t => t.2.1) hcj
    have e3 := congrArg (fun t => t.2.2) hcj
    simp only at e1 e2 e3
    rcases hne with hm | hm | hm
    · exact ax3 hm e1.symm
    · exact ay3 hm e2.symm
    · exact az3 hm e3.symm
  · unfold Adjacent
    rw [hcj]
    exact ⟨ax2, ax1, ay2, ay1, az2, az1⟩

/-- Every in-bounds index adjacent to `i` and different from it is read while
voxel `i` is visited. -/
theorem neighbor_reads_complete (g : Grid) (h : WellFormed g) (p q : Nat)
    (hp : p < nr_voxels g) (hq : q < nr_voxels g) (hpq : p ≠ q) (hadj : Adjacent g p q) :
    q ∈ neighbor_reads g p := by
  obtain ⟨px, py, pz, plin⟩ := h.coords p hp
  obtain ⟨qx, qy, qz, qlin⟩ := h.coords q hq
  obtain ⟨sx, sy, sz, sA⟩ := h.sizes_lt p hp
  obtain ⟨a1, a2, a3, a4, a5, a6⟩ := hadj
  obtain ⟨mx, okx, ex, stx⟩ := Move.exists_of_near _ _ _ px qx sx a2 a1
  obtain ⟨my, oky, ey, sty⟩ := Move.exists_of_near _ _ _ py qy sy a4 a3
  obtain ⟨mz, okz, ez, stz⟩ := Move.exists_of_near _ _ _ pz qz sz a6 a5
  have hne : mx ≠ .stay ∨ my ≠ .stay ∨ mz ≠ .stay := by
    by_contra hc
    simp only [not_or, not_not] at hc
    apply hpq
    rw [← plin, ← qlin, stx hc.1, sty hc.2.1, stz hc.2.2]
  have hm := mem_jumps_complete g.size_x g.size_y (end_x g) (end_y g) (end_z g)
    _ _ _ mx my mz hne okx oky okz
  rw [ex, ey, ez, sub2ind_eq _ _ _ _ _ _ qx qy qz h.2.1, qlin] at hm
  exact hm

/-! ## Rows of the adjacency table -/

theorem toU32_ne_zero {g : Grid} (h : WellFormed g) (i : Nat) (hi : g.at i ≠ 0) :
    toU32 (g.at i) ≠ 0 := by
  intro e
  have := toI32_toU32 _ (h.at_range i).1 (h.at_range i).2
  rw [e] at this
  exact hi (by rw [← this]; decide)

theorem toU32_inj {g : Grid} (h : WellFormed g) (i j : Nat)
    (e : toU32 (g.at i) = toU32 (g.at j)) : g.at i = g.at j := by
  have h1 := toI32_toU32 _ (h.at_range i).1 (h.at_range i).2
  have h2 := toI32_toU32 _ (h.at_range j).1 (h.at_range j).2
  rw [← h1, ← h2, e]

/-- Under well-formedness a value is in the row of `k` exactly when it is the
nonzero value, different from `k`, of a voxel read while a voxel of `k` is
visited. -/
theorem mem_row_of_iff (g : Grid) (h : WellFormed g) (k v : Int) :
    v ∈ row_of g k ↔
      ∃ i, i < nr_voxels g ∧ g.at i ≠ 0 ∧ g.at i = k ∧
        ∃ j ∈ neighbor_reads g i, g.at j = v ∧ v ≠ 0 ∧ v ≠ k := by
  rw [mem_row_of]
  constructor
  · rintro ⟨u, hu, h0, hk, rfl⟩
    obtain ⟨i, hi, hi0, hik, j, hj, rfl⟩ := (mem_neighbor_set g k u).1 hu
    have e := toI32_toU32 _ (h.at_range j).1 (h.at_range j).2
    refine ⟨i, hi, hi0, hik, j, hj, e.symm, ?_, ?_⟩
    · rw [e]; intro hz; rw [hz] at h0; exact h0 (by decide)
    · rw [e]; intro hz; rw [hz] at hk; exact hk rfl
  · rintro ⟨i, hi, hi0, hik, j, hj, rfl, h0, hk⟩
    refine ⟨toU32 (g.at j), (mem_neighbor_set g k _).2 ⟨i, hi, hi0, hik, j, hj, rfl⟩,
      toU32_ne_zero h j h0, ?_, toI32_toU32 _ (h.at_range j).1 (h.at_range j).2⟩
    intro e
    rw [← hik] at e hk
    exact hk (toU32_inj h j i e)

/-! ## Row lengths and `max_nr_neighbors` -/

theorem row_of_nodup (g : Grid) (k : Int) : (row_of g k).Nodup := by
  unfold row_of
  have hs : (set_erase (toU32 k) (set_erase (toU32 0) (neighbor_set g k))).Pairwise (· < ·) :=
    set_erase_sorted _ _ (set_erase_sorted _ _ (neighbor_set_sorted g k))
  have hnd : (set_erase (toU32 k) (set_erase (toU32 0) (neighbor_set g k))).Nodup :=
    hs.imp (fun hab => ne_of_lt hab)
  refine List.Nodup.map_on ?_ hnd
  intro x hx y hy e
  have hx' := neighbor_set_lt g k x ((mem_set_erase _ _ _).1 ((mem_set_erase _ _ _).1 hx).1).1
  have hy' := neighbor_set_lt g k y ((mem_set_erase _ _ _).1 ((mem_set_erase _ _ _).1 hy).1).1
  rw [← toU32_toI32 x hx', ← toU32_toI32 y hy', e]

theorem set_labels_nodup (g : Grid) : (set_labels g).Nodup :=
  (set_labels_sorted g).imp (fun hab => ne_of_lt hab)

theorem set_labels_length_le (g : Grid) : (set_labels g).length ≤ nr_voxels g := by
  have hsub : set_labels g ⊆ (nonzero_positions g).map g.at := by
    intro k hk
    obtain ⟨i, hi, h0, e⟩ := (mem_set_labels g k).1 hk
    exact List.mem_map.2 ⟨i, (mem_nonzero_positions g i).2 ⟨hi, h0⟩, e⟩
  have h1 := (List.subperm_of_subset (set_labels_nodup g) hsub).length_le
  rw [List.length_map] at h1
  exact le_trans h1 (nonzero_positions_length_le g)

/-- On a well-formed grid every element of the row of `k` is a label other
than `k`. -/
theorem row_of_subset (g : Grid) (h : WellFormed g) (k v : Int) (hv : v ∈ row_of g k) :
    v ∈ set_labels g ∧ v ≠ k := by
  obtain ⟨i, hi, _, _, j, hj, e, h0, hk⟩ := (mem_row_of_iff g h k v).1 hv
  refine ⟨(mem_set_labels g v).2 ⟨j, (neighbor_reads_sound g h i j hi hj).1, ?_, e⟩, hk⟩
  rw [e]; exact h0

theorem row_of_length_lt (g : Grid) (h : WellFormed g) (k : Int) (hk : k ∈ set_labels g) :
    (row_of g k).length < (set_labels g).length := by
  have hsub : row_of g k ⊆ (set_labels g).erase k := by
    intro v hv
    obtain ⟨h1, h2⟩ := row_of_subset g h k v hv
    exact (List.mem_erase_of_ne h2).2 h1
  have h1 := (List.subperm_of_subset (row_of_nodup g k) hsub).length_le
  rw [List.length_erase_of_mem hk] at h1
  have : 0 < (set_labels g).length := List.length_pos_of_mem hk
  omega

theorem label_step_max (g : Grid) (st : Discovery) (k : Int) :
    (label_step g st k).max_nr_neighbors =
      if st.max_nr_neighbors < (row_of g k).length then (row_of g k).length % 4294967296
      else st.max_nr_neighbors := by
  simp only [label_step, scan_label_snd, row_of, List.length_map]

theorem foldl_label_step_max (g : Grid) (l : List Int) (st : Discovery)
    (hl : ∀ k ∈ l, (row_of g k).length < 4294967296) :
    (l.foldl (label_step g) st).max_nr_neighbors =
      max st.max_nr_neighbors ((l.map (fun k => (row_of g k).length)).foldr max 0) := by
  induction l generalizing st with
  | nil => simp
  | cons k ks ih =>
    have hk := hl k (List.mem_cons_self _ _)
    simp only [List.foldl_cons, List.map_cons, List.foldr_cons]
    rw [ih _ (fun k' hk' => hl k' (List.mem_cons_of_mem _ hk')), label_step_max,
      Nat.mod_eq_of_lt hk]
    split <;> omega

theorem max_nr_neighbors_eq (g : Grid) (h : WellFormed g) :
    max_nr_neighbors g = max_row_length g := by
  unfold max_nr_neighbors max_row_length discovery
  rw [foldl_label_step_max, vec_neighbors_eq, List.map_map]
  · simp only [Nat.zero_max]; rfl
  · intro k hk
    have h1 := row_of_length_lt g h k hk
    have h2 := set_labels_length_le g
    have h3 := nr_voxels_lt g
    omega

theorem le_foldr_max (l : List Nat) (n : Nat) (hn : n ∈ l) : n ≤ l.foldr max 0 := by
  induction l with
  | nil => simp at hn
  | cons a as ih =>
    simp only [List.foldr_cons]
    rcases List.mem_cons.1 hn with rfl | hn
    · exact le_max_left _ _
    · exact le_trans (ih hn) (le_max_right _ _)

theorem foldr_max_le (l : List Nat) (b : Nat) (hb : ∀ n ∈ l, n ≤ b) : l.foldr max 0 ≤ b := by
  induction l with
  | nil => simp
  | cons a as ih =>
    simp only [List.foldr_cons]
    exact max_le (hb a (List.mem_cons_self _ _)) (ih (fun n hn => hb n (List.mem_cons_of_mem _ hn)))

theorem row_length_le_max (g : Grid) (h : WellFormed g) (k : Int) (hk : k ∈ set_labels g) :
    (row_of g k).length ≤ max_nr_neighbors g := by
  rw [max_nr_neighbors_eq g h]
  unfold max_row_length
  apply le_foldr_max
  rw [vec_neighbors_eq, List.map_map]
  exact List.mem_map.2 ⟨k, hk, rfl⟩

theorem max_nr_neighbors_lt (g : Grid) (h : WellFormed g) :
    max_nr_neighbors g + 1 < 4294967296 := by
  rw [max_nr_neighbors_eq g h]
  have h2 := set_labels_length_le g
  have h3 := nr_voxels_lt g
  have : max_row_length g ≤ (set_labels g).length - 1 := by
    unfold max_row_length
    apply foldr_max_le
    intro n hn
    rw [vec_neighbors_eq, List.map_map] at hn
    obtain ⟨k, hk, rfl⟩ := List.mem_map.1 hn
    have := row_of_length_lt g h k hk
    simp only [Function.comp_apply]
    omega
  omega

theorem dim4_eq (g : Grid) (h : WellFormed g) : dim4 g = max_nr_neighbors g + 1 := by
  unfold dim4 add32
  exact Nat.mod_eq_of_lt (max_nr_neighbors_lt g h)

theorem nvox_eq (g : Grid) (h : WellFormed g)
    (hov : nr_voxels g * (max_nr_neighbors g + 1) < 4294967296) :
    nvox g = nr_voxels g * (max_nr_neighbors g + 1) := by
  unfold nvox add32 mul32
  rw [Nat.mod_eq_of_lt (max_nr_neighbors_lt g h), Nat.mod_eq_of_lt hov]

/-! ## The label-index buffer -/

theorem getD_set (l : List Int) (i j : Nat) (a : Int) :
    (l.set i a).getD j 0 = if i = j ∧ i < l.length then a else l.getD j 0 := by
  by_cases hij : i = j
  · subst hij
    by_cases hlt : i < l.length
    · simp [List.getD_eq_getElem?_getD, List.getElem?_set, hlt]
    · have h1 : l.length ≤ i := not_lt.1 hlt
      simp [List.getD_eq_getElem?_getD, List.set_eq_of_length_le h1, hlt]
  · simp [List.getD_eq_getElem?_getD, List.getElem?_set_ne hij, hij]

theorem mark_length (g : Grid) (k c : Int) (l : List Nat) (b : List Int) :
    (l.foldl (fun b i => if g.at i = k then b.set i c else b) b).length = b.length := by
  induction l generalizing b with
  | nil => rfl
  | cons a as ih =>
    simp only [List.foldl_cons]
    rw [ih]
    split <;> simp

theorem mark_getD (g : Grid) (k c : Int) (l : List Nat) (b : List Int) (i : Nat) :
    (l.foldl (fun b i => if g.at i = k then b.set i c else b) b).getD i 0 =
      if i ∈ l ∧ g.at i = k ∧ i < b.length then c else b.getD i 0 := by
  induction l generalizing b with
  | nil => simp
  | cons a as ih =>
    simp only [List.foldl_cons]
    rw [ih]
    by_cases hak : g.at a = k
    · simp only [hak, if_true, List.length_set, getD_set, List.mem_cons]
      by_cases hia : a = i
      · subst hia
        by_cases hlt : a < b.length
        · simp [hak, hlt]
        · simp [hlt]
      · have hia' : ¬ i = a := fun e => hia e.symm
        simp [hia, hia']
    · simp only [hak, if_false, List.mem_cons]
      by_cases hia : i = a
      · subst hia
        simp [hak]
      · simp [hia]

theorem label_step_idx (g : Grid) (st : Discovery) (k : Int) :
    (label_step g st k).idx_label =
      (voi_seq g).foldl (fun b i => if g.at i = k then b.set i st.c else b) st.idx_label := by
  simp only [label_step]
  exact scan_fst g k st.c _ st.idx_label []

theorem label_step_c (g : Grid) (st : Discovery) (k : Int) :
    (label_step g st k).c = st.c + 1 := rfl

theorem foldl_label_step_idx_length (g : Grid) (l : List Int) (st : Discovery) :
    (l.foldl (label_step g) st).idx_label.length = st.idx_label.length := by
  induction l generalizing st with
  | nil => rfl
  | cons k ks ih =>
    simp only [List.foldl_cons]
    rw [ih, label_step_idx, mark_length]

theorem foldl_label_step_idx_frame (g : Grid) (l : List Int) (st : Discovery) (i : Nat)
    (h : g.at i ∉ l) :
    (l.foldl (label_step g) st).idx_label.getD i 0 = st.idx_label.getD i 0 := by
  induction l generalizing st with
  | nil => rfl
  | cons k ks ih =>
    simp only [List.foldl_cons]
    rw [ih _ (fun hm => h (List.mem_cons_of_mem _ hm)), label_step_idx, mark_getD]
    have hne : g.at i ≠ k := fun e => h (e ▸ List.mem_cons_self _ _)
    simp [hne]

theorem foldl_label_step_idx (g : Grid) (l : List Int) (st : Discovery) (i c : Nat)
    (hnd : l.Nodup) (hi : i ∈ voi_seq g) (hlen : i < st.idx_label.length)
    (hc : l[c]? = some (g.at i)) :
    (l.foldl (label_step g) st).idx_label.getD i 0 = st.c + c := by
  induction l generalizing st c with
  | nil => simp at hc
  | cons k ks ih =>
    simp only [List.foldl_cons]
    rw [List.nodup_cons] at hnd
    cases c with
    | zero =>
      simp only [List.getElem?_cons_zero, Option.some.injEq] at hc
      rw [foldl_label_step_idx_frame g ks _ i (by rw [← hc]; exact hnd.1), label_step_idx,
        mark_getD]
      simp [hi, hc, hlen]
    | succ c' =>
      simp only [List.getElem?_cons_succ] at hc
      rw [ih (label_step g st k) c' hnd.2 (by rw [label_step_idx, mark_length]; exact hlen) hc,
        label_step_c]
      push_cast
      ring

theorem idx_label_init_length (g : Grid) : (idx_label_init g).length = g.data.length := by
  unfold idx_label_init
  generalize List.range (nr_voxels g) = l
  generalize g.data = b
  induction l generalizing b with
  | nil => rfl
  | cons a as ih => simp only [List.foldl_cons]; rw [ih]; simp

/-- At a voxel of interest `idx_label` holds the row index of the voxel's
label. -/
theorem idx_label_at (g : Grid) (h : WellFormed g) (i c : Nat) (hi : i < nr_voxels g)
    (h0 : g.at i ≠ 0) (hc : (set_labels g)[c]? = some (g.at i)) :
    (idx_label g).getD i 0 = (c : Int) := by
  unfold idx_label discovery
  rw [foldl_label_step_idx g _ _ i c (set_labels_nodup g)
    (by rw [voi_seq_eq]; exact (mem_nonzero_positions g i).2 ⟨hi, h0⟩)
    (by simp only [idx_label_init_length]; rw [h.length_eq]; exact hi) hc]
  simp

theorem row_lookup (g : Grid) (h : WellFormed g) (i : Nat) (hi : i < nr_voxels g)
    (h0 : g.at i ≠ 0) :
    (vec_neighbors g).getD (toU32 ((idx_label g).getD i 0)) [] = row_of g (g.at i) := by
  have hmem : g.at i ∈ set_labels g := (mem_set_labels g _).2 ⟨i, hi, h0, rfl⟩
  obtain ⟨c, hc⟩ := List.mem_iff_getElem?.1 hmem
  have hclt : c < (set_labels g).length := by
    obtain ⟨hlt, _⟩ := List.getElem?_eq_some.1 hc
    exact hlt
  have h2 := set_labels_length_le g
  have h3 := nr_voxels_lt g
  rw [idx_label_at g h i c hi h0 hc, toU32_natCast c (by omega)]
  have := row_at g c _ hc
  simp [List.getD_eq_getElem?_getD, this]

/-! ## The output buffer -/

theorem set_fold_length (ms : List Nat) (f : Nat → Nat) (v : Nat → Int) (out : List Int) :
    (ms.foldl (fun o m => o.set (f m) (v m)) out).length = out.length := by
  induction ms generalizing out with
  | nil => rfl
  | cons a as ih => simp only [List.foldl_cons]; rw [ih]; simp

theorem set_fold_frame (ms : List Nat) (f : Nat → Nat) (v : Nat → Int) (out : List Int)
    (t : Nat) (h : ∀ m ∈ ms, f m ≠ t) :
    (ms.foldl (fun o m => o.set (f m) (v m)) out).getD t 0 = out.getD t 0 := by
  induction ms generalizing out with
  | nil => rfl
  | cons a as ih =>
    simp only [List.foldl_cons]
    rw [ih _ (fun m hm => h m (List.mem_cons_of_mem _ hm)), getD_set]
    simp [h a (List.mem_cons_self _ _)]

theorem set_fold_hit (ms : List Nat) (f : Nat → Nat) (v : Nat → Int) (out : List Int)
    (t m0 : Nat) (hm : m0 ∈ ms) (hf : f m0 = t) (ht : t < out.length)
    (hinj : ∀ m ∈ ms, f m = t → m = m0) :
    (ms.foldl (fun o m => o.set (f m) (v m)) out).getD t 0 = v m0 := by
  induction ms generalizing out with
  | nil => simp at hm
  | cons a as ih =>
    simp only [List.foldl_cons]
    by_cases hmem : m0 ∈ as
    · exact ih _ hmem (by simpa using ht) (fun m hm' => hinj m (List.mem_cons_of_mem _ hm'))
    · have ha : m0 = a := by
        rcases List.mem_cons.1 hm with e | e
        · exact e
        · exact absurd e hmem
      subst ha
      rw [set_fold_frame, getD_set]
      · simp [hf, ht]
      · intro m hm' e
        exact hmem (hinj m (List.mem_cons_of_mem _ hm') e ▸ hm')

theorem decomp_unique (n x a y i : Nat) (ha : a < n) (hi : i < n)
    (h : n * x + a = n * y + i) : x = y ∧ a = i := by
  have hn : 0 < n := by omega
  have h1 : (n * x + a) / n = x := by
    rw [Nat.add_comm, Nat.add_mul_div_left _ _ hn, Nat.div_eq_of_lt ha]; omega
  have h2 : (n * y + i) / n = y := by
    rw [Nat.add_comm, Nat.add_mul_div_left _ _ hn, Nat.div_eq_of_lt hi]; omega
  have hxy : x = y := by rw [← h1, ← h2, h]
  subst hxy
  exact ⟨rfl, by omega⟩

theorem pack_voxel_eq (g : Grid) (h : WellFormed g)
    (hov : nr_voxels g * (max_nr_neighbors g + 1) < 4294967296)
    (a : Nat) (ha : a < nr_voxels g) (ha0 : g.at a ≠ 0) (out : List Int) :
    pack_voxel g out a =
      (List.range (row_of g (g.at a)).length).foldl
        (fun o m => o.set (nr_voxels g * (m + 1) + a) ((row_of g (g.at a)).getD m 0))
        (out.set a (g.at a)) := by
  unfold pack_voxel
  simp only [row_lookup g h a ha ha0]
  apply List.foldl_ext
  intro o m hm
  have hlt : m < (row_of g (g.at a)).length := List.mem_range.1 hm
  have hmax := row_length_le_max g h (g.at a) ((mem_set_labels g _).2 ⟨a, ha, ha0, rfl⟩)
  have hM := max_nr_neighbors_lt g h
  have e1 : toU32 ((m : Int) + 1) = m + 1 := by
    have := toU32_natCast (m + 1) (by omega)
    rw [← this]; push_cast; rfl
  have hle : nr_voxels g * (m + 1) ≤ nr_voxels g * (max_nr_neighbors g + 1) :=
    Nat.mul_le_mul_left _ (by omega)
  have e2 : mul32 (nr_voxels g) (m + 1) = nr_voxels g * (m + 1) := by
    unfold mul32; exact Nat.mod_eq_of_lt (by omega)
  rw [e1, e2]

theorem pack_voxel_length (g : Grid) (out : List Int) (a : Nat) :
    (pack_voxel g out a).length = out.length := by
  unfold pack_voxel
  simp only [set_fold_length, List.length_set]

theorem pack_voxel_getD (g : Grid) (h : WellFormed g)
    (hov : nr_voxels g * (max_nr_neighbors g + 1) < 4294967296)
    (a : Nat) (ha : a < nr_voxels g) (ha0 : g.at a ≠ 0) (out : List Int)
    (hlen : out.length = nr_voxels g * (max_nr_neighbors g + 1))
    (i ch : Nat) (hi : i < nr_voxels g) (hch : ch ≤ max_nr_neighbors g) :
    (pack_voxel g out a).getD (nr_voxels g * ch + i) 0 =
      if i = a ∧ ch ≤ (row_of g (g.at a)).length then cell_value g a ch
      else out.getD (nr_voxels g * ch + i) 0 := by
  rw [pack_voxel_eq g h hov a ha ha0]
  have hbound : nr_voxels g * ch + i < nr_voxels g * (max_nr_neighbors g + 1) := by
    calc nr_voxels g * ch + i < nr_voxels g * ch + nr_voxels g := by omega
      _ = nr_voxels g * (ch + 1) := by ring
      _ ≤ nr_voxels g * (max_nr_neighbors g + 1) := Nat.mul_le_mul_left _ (by omega)
  by_cases hc : i = a ∧ ch ≤ (row_of g (g.at a)).length
  · obtain ⟨hia, hle⟩ := hc
    subst hia
    simp only [hle, and_self, if_true]
    cases ch with
    | zero =>
      rw [set_fold_frame, getD_set]
      · simp only [Nat.mul_zero, Nat.zero_add, true_and]
        have : i < out.length := by
          rw [hlen]
          calc i < nr_voxels g := hi
            _ = nr_voxels g * 1 := by ring
            _ ≤ nr_voxels g * (max_nr_neighbors g + 1) := Nat.mul_le_mul_left _ (by omega)
        simp [this, cell_value]
      · intro m _ e
        have := decomp_unique (nr_voxels g) (m + 1) i 0 i hi hi e
        omega
    | succ m0 =>
      rw [set_fold_hit _ _ _ _ _ m0 (List.mem_range.2 (by omega)) rfl
        (by rw [List.length_set, hlen]; exact hbound)]
      · simp [cell_value]
      · intro m _ e
        have := decomp_unique (nr_voxels g) (m + 1) i (m0 + 1) i hi hi e
        omega
  · simp only [hc, if_false]
    rw [set_fold_frame, getD_set]
    · have hne : ¬ (a = nr_voxels g * ch + i ∧ a < out.length) := by
        rintro ⟨e, _⟩
        have e' : nr_voxels g * 0 + a = nr_voxels g * ch + i := by
          rw [Nat.mul_zero, Nat.zero_add]; exact e
        have := decomp_unique (nr_voxels g) 0 a ch i ha hi e'
        exact hc ⟨this.2.symm, by omega⟩
      simp only [hne, if_false]
    · intro m hm e
      have hlt : m < (row_of g (g.at a)).length := List.mem_range.1 hm
      have := decomp_unique (nr_voxels g) (m + 1) a ch i ha hi e
      exact hc ⟨this.2.symm, by omega⟩

theorem pack_fold_length (g : Grid) (l : List Nat) (out : List Int) :
    (l.foldl (pack_voxel g) out).length = out.length := by
  induction l generalizing out with
  | nil => rfl
  | cons a as ih => simp only [List.foldl_cons]; rw [ih, pack_voxel_length]

theorem pack_fold_getD (g : Grid) (h : WellFormed g)
    (hov : nr_voxels g * (max_nr_neighbors g + 1) < 4294967296)
    (l : List Nat) (hl : ∀ a ∈ l, a < nr_voxels g ∧ g.at a ≠ 0) (out : List Int)
    (hlen : out.length = nr_voxels g * (max_nr_neighbors g + 1))
    (i ch : Nat) (hi : i < nr_voxels g) (hch : ch ≤ max_nr_neighbors g) :
    (l.foldl (pack_voxel g) out).getD (nr_voxels g * ch + i) 0 =
      if i ∈ l ∧ ch ≤ (row_of g (g.at i)).length then cell_value g i ch
      else out.getD (nr_voxels g * ch + i) 0 := by
  induction l generalizing out with
  | nil => simp
  | cons a as ih =>
    simp only [List.foldl_cons]
    have haa := hl a (List.mem_cons_self _ _)
    rw [ih (fun b hb => hl b (List.mem_cons_of_mem _ hb)) _
      (by rw [pack_voxel_length]; exact hlen),
      pack_voxel_getD g h hov a haa.1 haa.2 out hlen i ch hi hch]
    by_cases hia : i = a
    · subst hia
      by_cases hle : ch ≤ (row_of g (g.at i)).length
      · simp [hle]
      · simp [hle]
    · simp [hia]

/-- Every cell of the output: channel `ch` at position `i` holds `cell_value`
when `i` is a voxel of interest and `ch` does not exceed the length of its
row, and `0` otherwise. -/
theorem output_cell (g : Grid) (h : WellFormed g)
    (hov : nr_voxels g * (max_nr_neighbors g + 1) < 4294967296)
    (i ch : Nat) (hi : i < nr_voxels g) (hch : ch ≤ max_nr_neighbors g) :
    (output g).getD (nr_voxels g * ch + i) 0 =
      if g.at i ≠ 0 ∧ ch ≤ (row_of g (g.at i)).length then cell_value g i ch else 0 := by
  unfold output
  rw [pack_fold_getD g h hov _ _ _ (by rw [List.length_replicate, nvox_eq g h hov]) i ch hi hch]
  · rw [voi_seq_eq]
    have hbound : nr_voxels g * ch + i < nvox g := by
      rw [nvox_eq g h hov]
      calc nr_voxels g * ch + i < nr_voxels g * ch + nr_voxels g := by omega
        _ = nr_voxels g * (ch + 1) := by ring
        _ ≤ nr_voxels g * (max_nr_neighbors g + 1) := Nat.mul_le_mul_left _ (by omega)
    by_cases h0 : g.at i ≠ 0
    · simp [mem_nonzero_positions, hi, h0]
    · simp [mem_nonzero_positions, hi, h0, List.getD_eq_getElem?_getD,
        List.getElem?_replicate, hbound]
  · intro a ha
    rw [voi_seq_eq] at ha
    exact (mem_nonzero_positions g a).1 ha

theorem output_length (g : Grid) : (output g).length = nvox g := by
  unfold output
  rw [pack_fold_length, List.length_replicate]

/-! ## Further facts used by the later claims -/

theorem Adjacent.symm {g : Grid} {p q : Nat} (h : Adjacent g p q) : Adjacent g q p := by
  obtain ⟨a1, a2, a3, a4, a5, a6⟩ := h
  exact ⟨a2, a1, a4, a3, a6, a5⟩

theorem row_of_symm (g : Grid) (h : WellFormed g) (k k' : Int) (hm : k' ∈ row_of g k) :
    k ∈ row_of g k' := by
  obtain ⟨i, hi, hi0, hik, j, hj, hjk, h0, hne⟩ := (mem_row_of_iff g h k k').1 hm
  obtain ⟨hjlt, hji, hadj⟩ := neighbor_reads_sound g h i j hi hj
  rw [mem_row_of_iff g h]
  refine ⟨j, hjlt, by rw [hjk]; exact h0, hjk, i,
    neighbor_reads_complete g h j i hjlt hi hji hadj.symm, hik, ?_, fun e => hne e.symm⟩
  rw [← hik]; exact hi0

theorem idx_label_init_getD (g : Grid) (i : Nat) (hi : i < nr_voxels g) :
    (idx_label_init g).getD i 0 = 0 := by
  unfold idx_label_init
  by_cases hlen : i < g.data.length
  · exact set_fold_hit (List.range (nr_voxels g)) (fun m => m) (fun _ => 0) g.data i i
      (List.mem_range.2 hi) rfl hlen (fun m _ e => e)
  · apply List.getD_eq_default
    have := set_fold_length (List.range (nr_voxels g)) (fun m => m) (fun _ => (0 : Int)) g.data
    simp only at this
    rw [this]
    exact not_lt.1 hlen

theorem idx_label_length (g : Grid) : (idx_label g).length = g.data.length := by
  unfold idx_label discovery
  rw [foldl_label_step_idx_length]
  exact idx_label_init_length g

theorem idx_label_background (g : Grid) (i : Nat) (hi : i < nr_voxels g) (h0 : g.at i = 0) :
    (idx_label g).getD i 0 = 0 := by
  unfold idx_label discovery
  rw [foldl_label_step_idx_frame]
  · exact idx_label_init_getD g i hi
  · intro hm
    obtain ⟨j, _, hj0, e⟩ := (mem_set_labels g _).1 hm
    rw [e] at hj0
    exact hj0 h0

theorem nonzero_positions_eq_nil (g : Grid) (h0 : ∀ i, i < nr_voxels g → g.at i = 0) :
    nonzero_positions g = [] := by
  unfold nonzero_positions
  rw [List.filter_eq_nil_iff]
  intro i hi
  simp [h0 i (List.mem_range.1 hi)]

/-! ## The 26 branches and the clipped neighbourhood -/

theorem filterMap_move_read_cons (sx sy ex ey ez ix iy iz : Nat) (m : Move × Move × Move)
    (ms : List (Move × Move × Move)) :
    (m :: ms).filterMap (move_read sx sy ex ey ez ix iy iz) =
      branch (m.1.ok ix ex ∧ m.2.1.ok iy ey ∧ m.2.2.ok iz ez)
          (sub2ind_3D (m.1.app ix) (m.2.1.app iy) (m.2.2.app iz) sx sy)
        ++ ms.filterMap (move_read sx sy ex ey ez ix iy iz) := by
  by_cases hg : m.1.ok ix ex ∧ m.2.1.ok iy ey ∧ m.2.2.ok iz ez
  · simp only [List.filterMap_cons, move_read, branch, if_pos hg, List.singleton_append]
  · simp only [List.filterMap_cons, move_read, branch, if_neg hg, List.nil_append]

set_option maxRecDepth 4000 in
theorem jumps_eq_filterMap (sx sy ex ey ez ix iy iz : Nat) :
    jumps sx sy ex ey ez ix iy iz =
      branch_moves.filterMap (move_read sx sy ex ey ez ix iy iz) := by
  simp only [branch_moves, filterMap_move_read_cons, List.filterMap_nil, List.append_nil,
    Move.ok, Move.app, and_true, true_and, jumps, List.append_assoc]

theorem offsets26_perm :
    (branch_moves.map (fun m => (m.1.off, m.2.1.off, m.2.2.off))).Perm offsets26 := by
  decide

theorem Move.ok_iff (m : Move) (i s : Nat) (hi : i < s) (hs : s < 4294967296) :
    m.ok i (sub32 s 1) ↔ 0 ≤ (i : Int) + m.off ∧ (i : Int) + m.off < s := by
  cases m
  · simp only [Move.ok, Move.off, sub32]; omega
  · simp only [Move.ok, Move.off, true_iff]; omega
  · simp only [Move.ok, Move.off, sub32]; omega

theorem Move.app_eq (m : Move) (i s : Nat) (hi : i < s) (hs : s < 4294967296)
    (hok : m.ok i (sub32 s 1)) : m.app i = ((i : Int) + m.off).toNat := by
  cases m <;> simp only [Move.ok, Move.app, Move.off, sub32, add32] at hok ⊢ <;> omega

theorem Move.app_cast (m : Move) (i s : Nat) (hi : i < s) (hs : s < 4294967296)
    (hok : m.ok i (sub32 s 1)) : ((m.app i : Nat) : Int) = (i : Int) + m.off := by
  cases m <;> simp only [Move.ok, Move.app, Move.off, sub32, add32] at hok ⊢ <;> omega

theorem move_read_eq_offset_read (sx sy sz ix iy iz : Nat)
    (hx : ix < sx) (hy : iy < sy) (hz : iz < sz)
    (hsx : sx < 4294967296) (hsy : sy < 4294967296) (hsz : sz < 4294967296)
    (m : Move × Move × Move) :
    move_read sx sy (sub32 sx 1) (sub32 sy 1) (sub32 sz 1) ix iy iz m =
      offset_read sx sy sz ix iy iz (m.1.off, m.2.1.off, m.2.2.off) := by
  have gx := Move.ok_iff m.1 ix sx hx hsx
  have gy := Move.ok_iff m.2.1 iy sy hy hsy
  have gz := Move.ok_iff m.2.2 iz sz hz hsz
  unfold move_read offset_read
  by_cases hg : m.1.ok ix (sub32 sx 1) ∧ m.2.1.ok iy (sub32 sy 1) ∧ m.2.2.ok iz (sub32 sz 1)
  · have hg' := hg
    rw [gx, gy, gz] at hg'
    rw [if_pos hg, if_pos ⟨hg'.1.1, hg'.1.2, hg'.2.1.1, hg'.2.1.2, hg'.2.2.1, hg'.2.2.2⟩,
      Move.app_eq m.1 ix sx hx hsx hg.1, Move.app_eq m.2.1 iy sy hy hsy hg.2.1,
      Move.app_eq m.2.2 iz sz hz hsz hg.2.2]
  · have hg' : ¬ (0 ≤ (ix : Int) + m.1.off ∧ (ix : Int) + m.1.off < sx ∧
        0 ≤ (iy : Int) + m.2.1.off ∧ (iy : Int) + m.2.1.off < sy ∧
        0 ≤ (iz : Int) + m.2.2.off ∧ (iz : Int) + m.2.2.off < sz) := by
      intro hc
      exact hg ⟨gx.2 ⟨hc.1, hc.2.1⟩, gy.2 ⟨hc.2.2.1, hc.2.2.2.1⟩,
        gz.2 ⟨hc.2.2.2.2.1, hc.2.2.2.2.2⟩⟩
    rw [if_neg hg, if_neg hg']

theorem jumps_perm_clipped (sx sy sz ix iy iz : Nat)
    (hx : ix < sx) (hy : iy < sy) (hz : iz < sz)
    (hsx : sx < 4294967296) (hsy : sy < 4294967296) (hsz : sz < 4294967296) :
    (jumps sx sy (sub32 sx 1) (sub32 sy 1) (sub32 sz 1) ix iy iz).Perm
      (clipped_neighbourhood sx sy sz ix iy iz) := by
  rw [jumps_eq_filterMap]
  have e : branch_moves.filterMap
        (move_read sx sy (sub32 sx 1) (sub32 sy 1) (sub32 sz 1) ix iy iz) =
      (branch_moves.map (fun m => (m.1.off, m.2.1.off, m.2.2.off))).filterMap
        (offset_read sx sy sz ix iy iz) := by
    rw [List.filterMap_map]
    apply List.filterMap_congr
    intro m _
    exact move_read_eq_offset_read sx sy sz ix iy iz hx hy hz hsx hsy hsz m
  rw [e]
  exact offsets26_perm.filterMap _

theorem jumps_length_interior (sx sy ex ey ez ix iy iz : Nat)
    (h1 : ix > 0) (h2 : ix < ex) (h3 : iy > 0) (h4 : iy < ey) (h5 : iz > 0) (h6 : iz < ez) :
    (jumps sx sy ex ey ez ix iy iz).length = 26 := by
  simp [jumps, branch, h1, h2, h3, h4, h5, h6]

theorem jumps_length_corner (sx sy ex ey ez ix iy iz : Nat)
    (hx : (ix > 0 ∧ ¬ ix < ex) ∨ (¬ ix > 0 ∧ ix < ex))
    (hy : (iy > 0 ∧ ¬ iy < ey) ∨ (¬ iy > 0 ∧ iy < ey))
    (hz : (iz > 0 ∧ ¬ iz < ez) ∨ (¬ iz > 0 ∧ iz < ez)) :
    (jumps sx sy ex ey ez ix iy iz).length = 7 := by
  rcases hx with ⟨x1, x2⟩ | ⟨x1, x2⟩ <;> rcases hy with ⟨y1, y2⟩ | ⟨y1, y2⟩ <;>
    rcases hz with ⟨z1, z2⟩ | ⟨z1, z2⟩ <;>
    simp [jumps, branch, x1, x2, y1, y2, z1, z2]

/-! ## Visits of the per-label loop -/

theorem foldl_ite_eq_foldl_filter {σ : Type} (p : Nat → Prop) [DecidablePred p]
    (f : σ → Nat → σ) (l : List Nat) (s : σ) :
    l.foldl (fun st i => if p i then f st i else st) s =
      (l.filter (fun i => decide (p i))).foldl f s := by
  induction l generalizing s with
  | nil => rfl
  | cons a as ih =>
    by_cases h : p a
    · simp only [List.foldl_cons, List.filter_cons, h, if_true, decide_True]
      exact ih _
    · simp only [List.foldl_cons, List.filter_cons, h, if_false, decide_False]
      exact ih _

theorem sum_map_single (l : List Int) (f : Int → Nat) (k0 : Int) (hnd : l.Nodup)
    (hk : k0 ∈ l) (hz : ∀ k ∈ l, k ≠ k0 → f k = 0) : (l.map f).sum = f k0 := by
  induction l with
  | nil => simp at hk
  | cons a as ih =>
    rw [List.nodup_cons] at hnd
    simp only [List.map_cons, List.sum_cons]
    rcases List.mem_cons.1 hk with rfl | hk'
    · have hrest : (as.map f).sum = 0 := by
        apply List.sum_eq_zero
        intro n hn
        obtain ⟨k, hk1, rfl⟩ := List.mem_map.1 hn
        exact hz k (List.mem_cons_of_mem _ hk1) (fun e => hnd.1 (e ▸ hk1))
      omega
    · have ha : f a = 0 :=
        hz a (List.mem_cons_self _ _) (fun e => hnd.1 (e ▸ hk'))
      rw [ha, ih hnd.2 hk' (fun k hk1 => hz k (List.mem_cons_of_mem _ hk1))]
      omega

theorem sum_map_add_nat (l : List Int) (f1 f2 : Int → Nat) :
    (l.map (fun k => f1 k + f2 k)).sum = (l.map f1).sum + (l.map f2).sum := by
  induction l with
  | nil => rfl
  | cons a as ih => simp only [List.map_cons, List.sum_cons, ih]; omega

theorem sum_length_filter (labels : List Int) (hnd : labels.Nodup) (l : List Nat)
    (f : Nat → Int) (hl : ∀ i ∈ l, f i ∈ labels) :
    (labels.map (fun k => (l.filter (fun i => decide (f i = k))).length)).sum = l.length := by
  induction l with
  | nil =>
    apply List.sum_eq_zero
    intro n hn
    obtain ⟨k, _, rfl⟩ := List.mem_map.1 hn
    rfl
  | cons a as ih =>
    have hfun : (fun k => ((a :: as).filter (fun i => decide (f i = k))).length) =
        (fun k => (if f a = k then 1 else 0) +
          (as.filter (fun i => decide (f i = k))).length) := by
      funext k
      by_cases h : f a = k
      · simp [List.filter_cons, h]; omega
      · simp [List.filter_cons, h]
    rw [hfun, sum_map_add_nat, ih (fun i hi => hl i (List.mem_cons_of_mem _ hi)),
      sum_map_single labels (fun k => if f a = k then 1 else 0) (f a) hnd
        (hl a (List.mem_cons_self _ _)) (fun k _ hne => if_neg (fun e => hne e.symm))]
    simp only [if_true, List.length_cons]
    omega

theorem voi_seq_nodup (g : Grid) : (voi_seq g).Nodup := by
  rw [voi_seq_eq]
  exact (nonzero_positions_sorted g).imp (fun hab => ne_of_lt hab)

/-! ## Facts used by the claims on the packed output -/

theorem vec_neighbors_length (g : Grid) : (vec_neighbors g).length = (set_labels g).length := by
  rw [vec_neighbors_eq, List.length_map]

theorem row_of_sorted_of_nonneg (g : Grid) (k : Int) (hpos : ∀ v ∈ row_of g k, 0 ≤ v) :
    (row_of g k).Pairwise (· < ·) := by
  unfold row_of at hpos ⊢
  have hs : (set_erase (toU32 k) (set_erase (toU32 0) (neighbor_set g k))).Pairwise (· < ·) :=
    set_erase_sorted _ _ (set_erase_sorted _ _ (neighbor_set_sorted g k))
  rw [List.pairwise_map]
  refine hs.imp_of_mem ?_
  intro a b ha hb hab
  have ha' := neighbor_set_lt g k a ((mem_set_erase _ _ _).1 ((mem_set_erase _ _ _).1 ha).1).1
  have hb' := neighbor_set_lt g k b ((mem_set_erase _ _ _).1 ((mem_set_erase _ _ _).1 hb).1).1
  have pa := hpos _ (List.mem_map.2 ⟨a, ha, rfl⟩)
  have pb := hpos _ (List.mem_map.2 ⟨b, hb, rfl⟩)
  unfold toI32 at pa pb ⊢
  split at pa <;> split at pb <;> omega

theorem scan_logged_fold (g : Grid) (k c : Int) (l : List Nat)
    (st : List Int × List Nat) (log : List (Nat × Int)) :
    l.foldl
        (fun (st : (List Int × List Nat) × List (Nat × Int)) i =>
          if g.at i = k then ((st.1.1.set i c, visit_voxel g i st.1.2), st.2 ++ [(i, c)])
          else st)
        (st, log) =
      (l.foldl
        (fun (st : List Int × List Nat) i =>
          if g.at i = k then (st.1.set i c, visit_voxel g i st.2) else st) st,
       log ++ (l.filter (fun i => decide (g.at i = k))).map (fun i => (i, c))) := by
  induction l generalizing st log with
  | nil => simp
  | cons a as ih =>
    by_cases h : g.at a = k
    · simp only [List.foldl_cons, List.filter_cons, h, if_true, decide_True, List.map_cons]
      rw [ih]
      simp
    · simp only [List.foldl_cons, h, if_false]
      rw [ih]
      simp [List.filter_cons, h]

theorem scan_label_logged_eq (g : Grid) (k c : Int) (idx : List Int)
    (log : List (Nat × Int)) :
    scan_label_logged g k c idx log =
      (scan_label g k c idx, log ++ (visits g k).map (fun i => (i, c))) := by
  unfold scan_label_logged scan_label visits
  exact scan_logged_fold g k c (voi_seq g) (idx, []) log

theorem label_step_logged_eq (g : Grid) (st : Discovery) (log : List (Nat × Int)) (k : Int) :
    label_step_logged g (st, log) k =
      (label_step g st k, log ++ (visits g k).map (fun i => (i, st.c))) := by
  simp only [label_step_logged, scan_label_logged_eq, label_step]

theorem foldl_label_step_logged (g : Grid) (l : List Int) (st : Discovery)
    (log : List (Nat × Int)) :
    l.foldl (label_step_logged g) (st, log) =
      (l.foldl (label_step g) st, log ++ visit_log g l st.c) := by
  induction l generalizing st log with
  | nil => simp [visit_log]
  | cons k ks ih =>
    simp only [List.foldl_cons, label_step_logged_eq, ih, visit_log, label_step_c,
      List.append_assoc]

theorem discovery_logged_eq (g : Grid) :
    discovery_logged g = (discovery g, visit_log g (set_labels g) 0) := by
  unfold discovery_logged discovery
  rw [foldl_label_step_logged]
  simp

theorem visit_log_length (g : Grid) (l : List Int) (c : Int) :
    (visit_log g l c).length = (l.map (fun k => (visits g k).length)).sum := by
  induction l generalizing c with
  | nil => rfl
  | cons k ks ih =>
    simp only [visit_log, List.length_append, List.length_map, List.map_cons, List.sum_cons, ih]

theorem visit_log_count (g : Grid) (l : List Int) (c : Int) (i : Nat) :
    ((visit_log g l c).filter (fun e => decide (e.1 = i))).length =
      (l.map (fun k => (visits g k).count i)).sum := by
  induction l generalizing c with
  | nil => rfl
  | cons k ks ih =>
    simp only [visit_log, List.filter_append, List.length_append, List.map_cons, List.sum_cons,
      ih]
    congr 1
    rw [List.filter_map, List.length_map, List.count, List.countP_eq_length_filter]
    congr 1

theorem visit_log_replay (g : Grid) (l : List Int) (st : Discovery) :
    (l.foldl (label_step g) st).idx_label =
      (visit_log g l st.c).foldl (fun b e => b.set e.1 e.2) st.idx_label := by
  induction l generalizing st with
  | nil => rfl
  | cons k ks ih =>
    simp only [List.foldl_cons, visit_log, List.foldl_append]
    rw [ih, label_step_c, label_step_idx,
      foldl_ite_eq_foldl_filter (fun i => g.at i = k) (fun (b : List Int) i => b.set i st.c),
      List.foldl_map]
    rfl

theorem mem_visit_log (g : Grid) (l : List Int) (c : Int) (e : Nat × Int)
    (he : e ∈ visit_log g l c) : e.1 < nr_voxels g ∧ g.at e.1 ≠ 0 := by
  induction l generalizing c with
  | nil => simp [visit_log] at he
  | cons k ks ih =>
    simp only [visit_log, List.mem_append, List.mem_map] at he
    rcases he with ⟨i, hi, rfl⟩ | he
    · unfold visits at hi
      have := (List.mem_filter.1 hi).1
      rw [voi_seq_eq] at this
      exact (mem_nonzero_positions g i).1 this
    · exact ih _ he

/-! ## The claims -/

/-- C1 (no missed adjacency). On a well-formed grid (buffer length
`size_x*size_y*size_z`, no 32-bit overflow, `int32` cells), for two distinct
nonzero values `k` and `k'`: if in-bounds positions `p` and `q` hold `k` and
`k'` and their `x`, `y`, `z` coordinates each differ by at most one, then `k`
is a label, it has a row in `vec_neighbors`, and `k'` is an element of that
row. -/
theorem no_missed_adjacency (g : Grid) (h : WellFormed g) (k k' : Int) (p q : Nat)
    (hk : k ≠ 0) (hk' : k' ≠ 0) (hne : k ≠ k')
    (hp : p < nr_voxels g) (hq : q < nr_voxels g) (hpq : p ≠ q)
    (hpk : g.at p = k) (hqk : g.at q = k') (hadj : Adjacent g p q) :
    ∃ (c : Nat) (row : List Int), (set_labels g)[c]? = some k ∧ (vec_neighbors g)[c]? = some row ∧ k' ∈ row := by
  have hmem : k ∈ set_labels g := (mem_set_labels g k).2 ⟨p, hp, by rw [hpk]; exact hk, hpk⟩
  obtain ⟨c, hc⟩ := List.mem_iff_getElem?.1 hmem
  refine ⟨c, row_of g k, hc, row_at g c k hc, ?_⟩
  rw [mem_row_of_iff g h]
  exact ⟨p, hp, by rw [hpk]; exact hk, hpk, q,
    neighbor_reads_complete g h p q hp hq hpq hadj, hqk, hk', fun e => hne e.symm⟩

/-- Witness for C1: the 2x2x2 grid with `1` at `(0,0,0)` and `2` at `(1,1,1)`. -/
theorem no_missed_adjacency_witness :
    ∃ (c : Nat) (row : List Int), (set_labels ⟨2, 2, 2, [1, 0, 0, 0, 0, 0, 0, 2]⟩)[c]? = some 1 ∧
      (vec_neighbors ⟨2, 2, 2, [1, 0, 0, 0, 0, 0, 0, 2]⟩)[c]? = some row ∧ (2 : Int) ∈ row :=
  no_missed_adjacency ⟨2, 2, 2, [1, 0, 0, 0, 0, 0, 0, 2]⟩ (by decide) 1 2 0 7
    (by decide) (by decide) (by decide) (by decide) (by decide) (by decide)
    (by decide) (by decide) (by decide)

/-- C2 (absent labels). On a well-formed grid, an integer `v` that is not the
value of any voxel is not a member of `set_labels` and is not an element of
any row of `vec_neighbors`. -/
theorem absent_value_nowhere (g : Grid) (h : WellFormed g) (v : Int)
    (hv : ∀ i, i < nr_voxels g → g.at i ≠ v) :
    v ∉ set_labels g ∧ ∀ row ∈ vec_neighbors g, v ∉ row := by
  constructor
  · intro hm
    obtain ⟨i, hi, _, e⟩ := (mem_set_labels g v).1 hm
    exact hv i hi e
  · intro row hrow hm
    rw [vec_neighbors_eq] at hrow
    obtain ⟨k, _, rfl⟩ := List.mem_map.1 hrow
    obtain ⟨i, hi, _, _, j, hj, e, _, _⟩ := (mem_row_of_iff g h k v).1 hm
    exact hv j (neighbor_reads_sound g h i j hi hj).1 e

/-- Witness for C2: the value `5` on the 3x1x1 grid `[1, 3, 2]`. -/
theorem absent_value_nowhere_witness :
    (5 : Int) ∉ set_labels ⟨3, 1, 1, [1, 3, 2]⟩ ∧
      ∀ row ∈ vec_neighbors ⟨3, 1, 1, [1, 3, 2]⟩, (5 : Int) ∉ row :=
  absent_value_nowhere ⟨3, 1, 1, [1, 3, 2]⟩ (by decide) 5 (by decide)

/-- C3 (rows exclude background and self). For every grid and every label `k`
of the label set, at row index `c`, the row stored for `k` exists and contains
neither `0` nor `k`; this includes a negative `k`, which is erased from the
unsigned accumulator through its `uint32_t` image. -/
theorem row_excludes_zero_and_self (g : Grid) (c : Nat) (k : Int)
    (hk : (set_labels g)[c]? = some k) :
    ∃ row, (vec_neighbors g)[c]? = some row ∧ (0 : Int) ∉ row ∧ k ∉ row := by
  refine ⟨row_of g k, row_at g c k hk, ?_, ?_⟩
  · intro hm
    obtain ⟨u, hu, h0, _, e⟩ := (mem_row_of g k 0).1 hm
    exact h0 ((toI32_eq_zero u (neighbor_set_lt g k u hu)).1 e)
  · intro hm
    obtain ⟨u, hu, _, hne, e⟩ := (mem_row_of g k k).1 hm
    apply hne
    rw [← e, toU32_toI32 u (neighbor_set_lt g k u hu)]

/-- Witness for C3: the negative label `-1` (row index `0`) of the 3x1x1 grid
`[-1, 1, 2]`. -/
theorem row_excludes_zero_and_self_witness :
    ∃ row, (vec_neighbors ⟨3, 1, 1, [-1, 1, 2]⟩)[0]? = some row ∧
      (0 : Int) ∉ row ∧ (-1 : Int) ∉ row :=
  row_excludes_zero_and_self ⟨3, 1, 1, [-1, 1, 2]⟩ 0 (-1) (by decide)

/-- C4, evaluated at the failing input: on the 3x1x1 grid `[-1, 1, 2]` (a
well-formed grid of `int32` values) the label set, a `set<int>`, is the
ascending `[-1, 1, 2]`, but the row stored for label `1`, accumulated in a
`set<uint32_t>`, is `[2, -1]`, so not every row is strictly ascending in
numeric order. -/
theorem row_order_with_negative_label :
    WellFormed ⟨3, 1, 1, [-1, 1, 2]⟩ ∧
    set_labels ⟨3, 1, 1, [-1, 1, 2]⟩ = [-1, 1, 2] ∧
    vec_neighbors ⟨3, 1, 1, [-1, 1, 2]⟩ = [[1], [2, -1], [1]] ∧
    ¬ ∀ row ∈ vec_neighbors ⟨3, 1, 1, [-1, 1, 2]⟩, row.Pairwise (· < ·) := by
  decide

/-- What the unsigned accumulator does guarantee: for every grid, every row
stored in `vec_neighbors` is duplicate-free and strictly ascending on the
`uint32_t` images of its elements, and a row that contains no negative label is
strictly ascending in numeric order. -/
theorem rows_nodup_and_ascending (g : Grid) :
    ∀ row ∈ vec_neighbors g,
      row.Nodup ∧ (row.map toU32).Pairwise (· < ·) ∧
      ((∀ v ∈ row, 0 ≤ v) → row.Pairwise (· < ·)) := by
  intro row hrow
  rw [vec_neighbors_eq] at hrow
  obtain ⟨k, _, rfl⟩ := List.mem_map.1 hrow
  refine ⟨row_of_nodup g k, ?_, row_of_sorted_of_nonneg g k⟩
  unfold row_of
  have hs : (set_erase (toU32 k) (set_erase (toU32 0) (neighbor_set g k))).Pairwise (· < ·) :=
    set_erase_sorted _ _ (set_erase_sorted _ _ (neighbor_set_sorted g k))
  rw [List.pairwise_map, List.pairwise_map]
  refine hs.imp_of_mem ?_
  intro a b ha hb hab
  have ha' := neighbor_set_lt g k a ((mem_set_erase _ _ _).1 ((mem_set_erase _ _ _).1 ha).1).1
  have hb' := neighbor_set_lt g k b ((mem_set_erase _ _ _).1 ((mem_set_erase _ _ _).1 hb).1).1
  rw [toU32_toI32 a ha', toU32_toI32 b hb']
  exact hab

/-- C5 (label enumeration). For every grid whose buffer has `nr_voxels` cells,
`set_labels` is strictly ascending, its elements are exactly the nonzero
values occurring in the grid, every such value occurs in it exactly once, and
`0` does not occur. -/
theorem set_labels_spec (g : Grid) (h : g.data.length = nr_voxels g) :
    (set_labels g).Pairwise (· < ·) ∧
    (∀ k, k ∈ set_labels g ↔ k ∈ g.data ∧ k ≠ 0) ∧
    (∀ k ∈ g.data, k ≠ 0 → (set_labels g).count k = 1) ∧
    (0 : Int) ∉ set_labels g := by
  have hmem : ∀ k, k ∈ set_labels g ↔ k ∈ g.data ∧ k ≠ 0 := by
    intro k
    rw [mem_set_labels]
    constructor
    · rintro ⟨i, hi, h0, rfl⟩
      refine ⟨?_, h0⟩
      unfold Grid.at
      rw [List.getD_eq_getElem _ _ (by omega)]
      exact List.getElem_mem _
    · rintro ⟨hk, h0⟩
      obtain ⟨i, hi, rfl⟩ := List.mem_iff_getElem.1 hk
      have e : g.at i = g.data[i] := List.getD_eq_getElem _ _ hi
      exact ⟨i, by omega, by rw [e]; exact h0, e⟩
  have hnd : (set_labels g).Nodup := (set_labels_sorted g).imp (fun hab => ne_of_lt hab)
  refine ⟨set_labels_sorted g, hmem, ?_, ?_⟩
  · intro k hk h0
    exact List.count_eq_one_of_mem hnd ((hmem k).2 ⟨hk, h0⟩)
  · intro h0
    exact ((hmem 0).1 h0).2 rfl

/-- Witness for C5: the 3x1x1 grid `[2, 0, -1]`. -/
theorem set_labels_spec_witness :
    (set_labels ⟨3, 1, 1, [2, 0, -1]⟩).Pairwise (· < ·) ∧
    (∀ k, k ∈ set_labels ⟨3, 1, 1, [2, 0, -1]⟩ ↔ k ∈ [2, 0, -1] ∧ k ≠ 0) ∧
    (∀ k ∈ [2, 0, -1], k ≠ 0 → (set_labels ⟨3, 1, 1, [2, 0, -1]⟩).count k = 1) ∧
    (0 : Int) ∉ set_labels ⟨3, 1, 1, [2, 0, -1]⟩ :=
  set_labels_spec ⟨3, 1, 1, [2, 0, -1]⟩ (by decide)

/-- C6 (VOI index). For every grid, the buffer `voi_id` built by the two scans,
read back as `uint32_t` indices, is the list of exactly the linear indices `i`
in `[0, nr_voxels)` with `grid[i] != 0`, in strictly increasing order; the
sequence visited by the later loops is that same list; its length is `nr_voi`,
which is at most `nr_voxels`; and when `nr_voxels` does not exceed `2^31` the
stored `int32_t` cells are these indices themselves. -/
theorem voi_id_spec (g : Grid) :
    (voi_id g).map toU32 = (List.range (nr_voxels g)).filter (fun i => decide (g.at i ≠ 0)) ∧
    voi_seq g = (List.range (nr_voxels g)).filter (fun i => decide (g.at i ≠ 0)) ∧
    ((voi_id g).map toU32).Pairwise (· < ·) ∧
    (∀ i, i ∈ (voi_id g).map toU32 ↔ i < nr_voxels g ∧ g.at i ≠ 0) ∧
    (voi_id g).length = nr_voi g ∧
    nr_voi g ≤ nr_voxels g ∧
    (nr_voxels g ≤ 2147483648 →
      voi_id g = List.map Int.ofNat
        ((List.range (nr_voxels g)).filter (fun i => decide (g.at i ≠ 0)))) := by
  have hback : (voi_id g).map toU32 = nonzero_positions g := by
    rw [voi_id_eq, List.map_map]
    conv_rhs => rw [← List.map_id (nonzero_positions g)]
    apply List.map_congr_left
    intro i hi
    have := ((mem_nonzero_positions g i).1 hi).1
    have := nr_voxels_lt g
    exact toU32_toI32 i (by omega)
  refine ⟨hback, voi_seq_eq g, ?_, ?_, ?_, ?_, ?_⟩
  · rw [hback]; exact nonzero_positions_sorted g
  · intro i; rw [hback]; exact mem_nonzero_positions g i
  · rw [voi_id_eq, List.length_map, nr_voi_eq]
  · rw [nr_voi_eq]; exact nonzero_positions_length_le g
  · intro hsmall
    rw [voi_id_eq]
    apply List.map_congr_left
    intro i hi
    have := ((mem_nonzero_positions g i).1 hi).1
    exact toI32_of_lt i (by omega)

theorem output_getElem? (g : Grid) (h : WellFormed g)
    (hov : nr_voxels g * (max_nr_neighbors g + 1) < 4294967296)
    (i ch : Nat) (hi : i < nr_voxels g) (hch : ch ≤ max_nr_neighbors g) :
    (output g)[nr_voxels g * ch + i]? =
      some (if g.at i ≠ 0 ∧ ch ≤ (row_of g (g.at i)).length then cell_value g i ch else 0) := by
  have hbound : nr_voxels g * ch + i < (output g).length := by
    rw [output_length, nvox_eq g h hov]
    calc nr_voxels g * ch + i < nr_voxels g * ch + nr_voxels g := by omega
      _ = nr_voxels g * (ch + 1) := by ring
      _ ≤ nr_voxels g * (max_nr_neighbors g + 1) := Nat.mul_le_mul_left _ (by omega)
  rw [← output_cell g h hov i ch hi hch, List.getD_eq_getElem _ _ hbound,
    List.getElem?_eq_getElem hbound]

theorem row_eq_of_index (g : Grid) (c : Nat) (k : Int) (row : List Int)
    (hc : (set_labels g)[c]? = some k) (hrow : (vec_neighbors g)[c]? = some row) :
    row = row_of g k := by
  have := row_at g c k hc
  rw [hrow] at this
  exact Option.some.inj this

/-- C7 (trailing dimension). On a well-formed grid the trailing dimension
`dim[4]` equals the largest row length plus one, the largest length over zero
rows being `0` (and `max_nr_neighbors` is that largest length); it is at least
`1`; and when `nr_voxels * (max_nr_neighbors + 1)` does not overflow 32 bits the
output buffer has exactly that many cells. -/
theorem trailing_dimension (g : Grid) (h : WellFormed g) :
    dim4 g = ((vec_neighbors g).map List.length).foldr max 0 + 1 ∧
    max_nr_neighbors g = ((vec_neighbors g).map List.length).foldr max 0 ∧
    1 ≤ dim4 g ∧
    (nr_voxels g * (max_nr_neighbors g + 1) < 4294967296 →
      (output g).length = nr_voxels g * (max_nr_neighbors g + 1)) := by
  have hd := dim4_eq g h
  have hm : max_nr_neighbors g = ((vec_neighbors g).map List.length).foldr max 0 :=
    max_nr_neighbors_eq g h
  refine ⟨by rw [hd, hm], hm, by omega, ?_⟩
  intro hov
  rw [output_length, nvox_eq g h hov]

/-- Witness for C7: the 2x2x2 grid with `1` at `(0,0,0)` and `2` at `(1,1,1)`
has trailing dimension `2` and an output of `16` cells. -/
theorem trailing_dimension_witness :
    dim4 ⟨2, 2, 2, [1, 0, 0, 0, 0, 0, 0, 2]⟩ = 1 + 1 ∧
    (output ⟨2, 2, 2, [1, 0, 0, 0, 0, 0, 0, 2]⟩).length = 8 * (1 + 1) :=
  ⟨(trailing_dimension ⟨2, 2, 2, [1, 0, 0, 0, 0, 0, 0, 2]⟩ (by decide)).1,
   (trailing_dimension ⟨2, 2, 2, [1, 0, 0, 0, 0, 0, 0, 2]⟩ (by decide)).2.2.2 (by decide)⟩

/-- C11 (label-index grid). On a well-formed grid, after the loop over the
labels `idx_label` has one cell per voxel; at every voxel of interest `i` it
holds the 0-based position `c` of `grid[i]` in the strictly ascending label
enumeration (so `c` is less than the number of labels and the `c`-th smallest
label is `grid[i]`), and at every other position it holds `0`. -/
theorem idx_label_spec (g : Grid) (h : WellFormed g) :
    (idx_label g).length = nr_voxels g ∧
    (set_labels g).Pairwise (· < ·) ∧
    (∀ i, i < nr_voxels g → g.at i ≠ 0 →
      ∃ c : Nat, c < (set_labels g).length ∧ (set_labels g)[c]? = some (g.at i) ∧
        (idx_label g)[i]? = some (c : Int)) ∧
    (∀ i, i < nr_voxels g → g.at i = 0 → (idx_label g)[i]? = some 0) := by
  have hlen : (idx_label g).length = nr_voxels g := by
    rw [idx_label_length, h.length_eq]
  refine ⟨hlen, set_labels_sorted g, ?_, ?_⟩
  · intro i hi h0
    have hmem : g.at i ∈ set_labels g := (mem_set_labels g _).2 ⟨i, hi, h0, rfl⟩
    obtain ⟨c, hc⟩ := List.mem_iff_getElem?.1 hmem
    obtain ⟨hclt, _⟩ := List.getElem?_eq_some.1 hc
    refine ⟨c, hclt, hc, ?_⟩
    rw [List.getElem?_eq_getElem (by omega), ← List.getD_eq_getElem _ 0 (by omega),
      idx_label_at g h i c hi h0 hc]
  · intro i hi h0
    rw [List.getElem?_eq_getElem (by omega), ← List.getD_eq_getElem _ 0 (by omega),
      idx_label_background g i hi h0]

/-- Witness for C11: the 2x2x2 grid with `1` at `(0,0,0)` and `2` at `(1,1,1)`;
voxel `7` carries the label of position `1`. -/
theorem idx_label_spec_witness :
    (idx_label ⟨2, 2, 2, [1, 0, 0, 0, 0, 0, 0, 2]⟩).length = 8 ∧
    (∃ c : Nat, c < (set_labels ⟨2, 2, 2, [1, 0, 0, 0, 0, 0, 0, 2]⟩).length ∧
      (set_labels ⟨2, 2, 2, [1, 0, 0, 0, 0, 0, 0, 2]⟩)[c]? = some 2 ∧
      (idx_label ⟨2, 2, 2, [1, 0, 0, 0, 0, 0, 0, 2]⟩)[7]? = some (c : Int)) ∧
    (idx_label ⟨2, 2, 2, [1, 0, 0, 0, 0, 0, 0, 2]⟩)[3]? = some 0 :=
  ⟨(idx_label_spec ⟨2, 2, 2, [1, 0, 0, 0, 0, 0, 0, 2]⟩ (by decide)).1,
   (idx_label_spec ⟨2, 2, 2, [1, 0, 0, 0, 0, 0, 0, 2]⟩ (by decide)).2.2.1 7
      (by decide) (by decide),
   (idx_label_spec ⟨2, 2, 2, [1, 0, 0, 0, 0, 0, 0, 2]⟩ (by decide)).2.2.2 3
      (by decide) (by decide)⟩

/-- C12 (index bijection). For sizes with `size_x*size_y*size_z < 2^32`,
`sub2ind_3D` maps the in-bounds triples into `[0, size_x*size_y*size_z)` and
`ind2sub_3D` inverts it; every index below `size_x*size_y*size_z` has an
in-bounds triple under `ind2sub_3D`, which `sub2ind_3D` maps back to the index.
Only `size_z > 0` is needed as a hypothesis: an in-bounds triple or index
exists only when `size_x` and `size_y` are positive as well. -/
theorem index_bijection (size_x size_y size_z : Nat) (hz : 0 < size_z)
    (hn : size_x * size_y * size_z < 4294967296) :
    (∀ x y z, x < size_x → y < size_y → z < size_z →
      sub2ind_3D x y z size_x size_y < size_x * size_y * size_z ∧
      ind2sub_3D (sub2ind_3D x y z size_x size_y) size_x size_y = (x, y, z)) ∧
    (∀ i, i < size_x * size_y * size_z →
      (ind2sub_3D i size_x size_y).1 < size_x ∧
      (ind2sub_3D i size_x size_y).2.1 < size_y ∧
      (ind2sub_3D i size_x size_y).2.2 < size_z ∧
      sub2ind_3D (ind2sub_3D i size_x size_y).1 (ind2sub_3D i size_x size_y).2.1
        (ind2sub_3D i size_x size_y).2.2 size_x size_y = i) := by
  have hA : size_x * size_y < 4294967296 :=
    lt_of_le_of_lt (Nat.le_mul_of_pos_right _ hz) hn
  constructor
  · intro x y z hxl hyl hzl
    rw [sub2ind_eq _ _ size_z _ _ _ hxl hyl hzl hn, ind2sub_eq _ _ _ hA]
    obtain ⟨d1, d2, d3⟩ := lin_decomp size_x size_y x y z hxl hyl
    exact ⟨lin_lt _ _ _ _ _ _ hxl hyl hzl, by rw [d1, d2, d3]⟩
  · intro i hi
    rw [ind2sub_eq _ _ _ hA]
    obtain ⟨c1, c2, c3⟩ := coords_lt size_x size_y size_z i hi
    refine ⟨c1, c2, c3, ?_⟩
    rw [sub2ind_eq _ _ size_z _ _ _ c1 c2 c3 hn]
    exact lin_coords _ _ _

/-- Witness for C12: sizes `3 x 4 x 5`, the triple `(2, 3, 4)` and the index `59`. -/
theorem index_bijection_witness :
    (sub2ind_3D 2 3 4 3 4 < 3 * 4 * 5 ∧ ind2sub_3D (sub2ind_3D 2 3 4 3 4) 3 4 = (2, 3, 4)) ∧
    ((ind2sub_3D 59 3 4).1 < 3 ∧ (ind2sub_3D 59 3 4).2.1 < 4 ∧ (ind2sub_3D 59 3 4).2.2 < 5 ∧
      sub2ind_3D (ind2sub_3D 59 3 4).1 (ind2sub_3D 59 3 4).2.1 (ind2sub_3D 59 3 4).2.2 3 4
        = 59) :=
  ⟨(index_bijection 3 4 5 (by decide) (by decide)).1 2 3 4
      (by decide) (by decide) (by decide),
   (index_bijection 3 4 5 (by decide) (by decide)).2 59 (by decide)⟩

/-- C13 (symmetry). On a well-formed grid, for two labels `k` and `k'` of the
label set with rows `row` and `row'`, `k'` is in the row of `k` if and only if
`k` is in the row of `k'`. -/
theorem adjacency_symmetric (g : Grid) (h : WellFormed g) (c c' : Nat) (k k' : Int)
    (row row' : List Int)
    (hc : (set_labels g)[c]? = some k) (hc' : (set_labels g)[c']? = some k')
    (hrow : (vec_neighbors g)[c]? = some row) (hrow' : (vec_neighbors g)[c']? = some row') :
    k' ∈ row ↔ k ∈ row' := by
  have e := row_eq_of_index g c k row hc hrow
  have e' := row_eq_of_index g c' k' row' hc' hrow'
  subst e e'
  exact ⟨row_of_symm g h k k', row_of_symm g h k' k⟩

/-- Witness for C13: labels `1` and `2` of the 3x3x1 grid
`[1, 2, 3, 0, 0, 0, 0, 0, 0]`. -/
theorem adjacency_symmetric_witness :
    (vec_neighbors ⟨3, 3, 1, [1, 2, 3, 0, 0, 0, 0, 0, 0]⟩)[0]? = some [2] ∧
    (vec_neighbors ⟨3, 3, 1, [1, 2, 3, 0, 0, 0, 0, 0, 0]⟩)[1]? = some [1, 3] ∧
    ((2 : Int) ∈ ([2] : List Int) ↔ (1 : Int) ∈ ([1, 3] : List Int)) :=
  ⟨by decide, by decide,
   adjacency_symmetric ⟨3, 3, 1, [1, 2, 3, 0, 0, 0, 0, 0, 0]⟩ (by decide) 0 1 1 2 [2] [1, 3]
    (by decide) (by decide) (by decide) (by decide)⟩

/-- C14 (empty VOI). For every grid all of whose voxels are `0`: `nr_voi` is
`0`, the VOI index and the label set are empty, `vec_neighbors` has no row,
`max_nr_neighbors` is `0`, the trailing dimension is `1`, and the output buffer
consists of `nr_voxels` zeros. -/
theorem empty_voi (g : Grid) (h0 : ∀ i, i < nr_voxels g → g.at i = 0) :
    nr_voi g = 0 ∧ voi_id g = [] ∧ voi_seq g = [] ∧ set_labels g = [] ∧
    vec_neighbors g = [] ∧ max_nr_neighbors g = 0 ∧ dim4 g = 1 ∧
    output g = List.replicate (nr_voxels g) 0 := by
  have hnz := nonzero_positions_eq_nil g h0
  have hseq : voi_seq g = [] := by rw [voi_seq_eq, hnz]
  have hlab : set_labels g = [] := by unfold set_labels; rw [hseq]; rfl
  have hdisc : discovery g = ⟨idx_label_init g, [], 0, 0⟩ := by
    unfold discovery; rw [hlab]; rfl
  have hmax : max_nr_neighbors g = 0 := by unfold max_nr_neighbors; rw [hdisc]
  have hnv : nvox g = nr_voxels g := by
    unfold nvox; rw [hmax]
    have := nr_voxels_lt g
    unfold mul32 add32
    simp only [Nat.zero_add, Nat.one_mod, Nat.mul_one]
    exact Nat.mod_eq_of_lt this
  refine ⟨by rw [nr_voi_eq, hnz]; rfl, by rw [voi_id_eq, hnz]; rfl, hseq, hlab, ?_, hmax, ?_, ?_⟩
  · unfold vec_neighbors; rw [hdisc]
  · unfold dim4; rw [hmax]; rfl
  · unfold output; rw [hseq, hnv]; rfl

/-- Witness for C14: the 2x3x1 grid of zeros. -/
theorem empty_voi_witness :
    dim4 ⟨2, 3, 1, [0, 0, 0, 0, 0, 0]⟩ = 1 ∧
    output ⟨2, 3, 1, [0, 0, 0, 0, 0, 0]⟩ =
      List.replicate (nr_voxels ⟨2, 3, 1, [0, 0, 0, 0, 0, 0]⟩) 0 :=
  ⟨(empty_voi ⟨2, 3, 1, [0, 0, 0, 0, 0, 0]⟩ (by decide)).2.2.2.2.2.2.1,
   (empty_voi ⟨2, 3, 1, [0, 0, 0, 0, 0, 0]⟩ (by decide)).2.2.2.2.2.2.2⟩

theorem eq_singleton_of_nodup (l : List Int) (k : Int) (hnd : l.Nodup)
    (hm : ∀ x, x ∈ l ↔ x = k) : l = [k] := by
  cases l with
  | nil => exact absurd ((hm k).2 rfl) (List.not_mem_nil k)
  | cons a t =>
    have ha : a = k := (hm a).1 (List.mem_cons_self _ _)
    subst ha
    cases t with
    | nil => rfl
    | cons b t' =>
      have hb : b = a := (hm b).1 (List.mem_cons_of_mem _ (List.mem_cons_self _ _))
      subst hb
      rw [List.nodup_cons] at hnd
      exact absurd (List.mem_cons_self _ _) hnd.1

theorem max_nr_neighbors_eq_zero (g : Grid) (h : WellFormed g)
    (hrows : ∀ row ∈ vec_neighbors g, row = []) : max_nr_neighbors g = 0 := by
  rw [max_nr_neighbors_eq g h]
  have : max_row_length g ≤ 0 := by
    unfold max_row_length
    apply foldr_max_le
    intro n hn
    obtain ⟨row, hrow, rfl⟩ := List.mem_map.1 hn
    rw [hrows row hrow]; rfl
  omega

/-- C15 (single label). On a well-formed grid in which exactly one nonzero
value `k` occurs, the label set is `[k]`, `vec_neighbors` has exactly one row,
that row is empty, `max_nr_neighbors` is `0` and the trailing dimension is
exactly `1`. -/
theorem single_label (g : Grid) (h : WellFormed g) (k : Int) (hk : k ≠ 0)
    (hex : ∃ i, i < nr_voxels g ∧ g.at i = k)
    (hall : ∀ i, i < nr_voxels g → g.at i = 0 ∨ g.at i = k) :
    set_labels g = [k] ∧ vec_neighbors g = [[]] ∧ max_nr_neighbors g = 0 ∧ dim4 g = 1 := by
  have hlab : set_labels g = [k] := by
    apply eq_singleton_of_nodup _ _ (set_labels_nodup g)
    intro x
    rw [mem_set_labels]
    constructor
    · rintro ⟨i, hi, h0, rfl⟩
      rcases hall i hi with e | e
      · exact absurd e h0
      · exact e
    · rintro rfl
      obtain ⟨i, hi, e⟩ := hex
      exact ⟨i, hi, by rw [e]; exact hk, e⟩
  have hrow : row_of g k = [] := by
    rw [List.eq_nil_iff_forall_not_mem]
    intro v hv
    obtain ⟨i, hi, _, _, j, hj, e, h0, hne⟩ := (mem_row_of_iff g h k v).1 hv
    rcases hall j (neighbor_reads_sound g h i j hi hj).1 with e' | e'
    · exact h0 (by rw [← e, e'])
    · exact hne (by rw [← e, e'])
  have hvec : vec_neighbors g = [[]] := by
    rw [vec_neighbors_eq, hlab, List.map_cons, List.map_nil, hrow]
  have hmax : max_nr_neighbors g = 0 := by
    apply max_nr_neighbors_eq_zero g h
    intro row hr
    rw [hvec] at hr
    exact List.mem_singleton.1 hr
  exact ⟨hlab, hvec, hmax, by rw [dim4_eq g h, hmax]⟩

/-- Witness for C15: the 2x2x1 grid `[7, 0, 7, 7]`. -/
theorem single_label_witness :
    set_labels ⟨2, 2, 1, [7, 0, 7, 7]⟩ = [7] ∧ vec_neighbors ⟨2, 2, 1, [7, 0, 7, 7]⟩ = [[]] ∧
    max_nr_neighbors ⟨2, 2, 1, [7, 0, 7, 7]⟩ = 0 ∧ dim4 ⟨2, 2, 1, [7, 0, 7, 7]⟩ = 1 :=
  single_label ⟨2, 2, 1, [7, 0, 7, 7]⟩ (by decide) 7 (by decide) ⟨0, by decide, by decide⟩
    (by decide)

/-- C16 (diagonal adjacency). On the 2x2x2 grid with `1` at `(0,0,0)` (linear
index `0`) and `2` at `(1,1,1)` (linear index `7`) and `0` elsewhere: the label
set is `[1, 2]`, the row of label `1` is `[2]`, the row of label `2` is `[1]`,
the trailing dimension is `2`, and the output is the input followed by channel
`1`, which holds `2` at index `0`, `1` at index `7` and `0` elsewhere. -/
theorem diagonal_adjacency :
    sub2ind_3D 0 0 0 2 2 = 0 ∧ sub2ind_3D 1 1 1 2 2 = 7 ∧
    set_labels ⟨2, 2, 2, [1, 0, 0, 0, 0, 0, 0, 2]⟩ = [1, 2] ∧
    vec_neighbors ⟨2, 2, 2, [1, 0, 0, 0, 0, 0, 0, 2]⟩ = [[2], [1]] ∧
    dim4 ⟨2, 2, 2, [1, 0, 0, 0, 0, 0, 0, 2]⟩ = 2 ∧
    output ⟨2, 2, 2, [1, 0, 0, 0, 0, 0, 0, 2]⟩ =
      [1, 0, 0, 0, 0, 0, 0, 2, 2, 0, 0, 0, 0, 0, 0, 1] := by
  decide

theorem output_eq_data (g : Grid) (h : WellFormed g)
    (hrows : ∀ row ∈ vec_neighbors g, row = []) : output g = g.data := by
  have hmax := max_nr_neighbors_eq_zero g h hrows
  have hN := nr_voxels_lt g
  have hov : nr_voxels g * (max_nr_neighbors g + 1) < 4294967296 := by
    rw [hmax]; omega
  have hlen : (output g).length = g.data.length := by
    rw [output_length, nvox_eq g h hov, hmax, h.length_eq]; omega
  apply List.ext_getElem hlen
  intro i h1 h2
  have hi : i < nr_voxels g := by rw [← h.length_eq]; exact h2
  have hcell := output_getElem? g h hov i 0 hi (Nat.zero_le _)
  rw [Nat.mul_zero, Nat.zero_add, List.getElem?_eq_getElem h1] at hcell
  have hat : g.at i = g.data[i] := List.getD_eq_getElem _ _ h2
  have hv := Option.some.inj hcell
  rw [hv]
  by_cases h0 : g.at i = 0
  · simp [h0, ← hat]
  · simp [h0, cell_value, ← hat]

/-- C17 (separated labels). For the 3x1x1 grid `[1, 0, 2]` the VOI index is
`[0, 2]`, the label set is `[1, 2]`, both rows are empty, `max_nr_neighbors` is
`0`, the trailing dimension is `1` and the output buffer is `[1, 0, 2]`; and on
every well-formed grid in which no two voxels carrying distinct nonzero values
are adjacent, every row is empty and the output buffer equals the input
buffer. -/
theorem separated_labels :
    (voi_id ⟨3, 1, 1, [1, 0, 2]⟩ = [0, 2] ∧ voi_seq ⟨3, 1, 1, [1, 0, 2]⟩ = [0, 2] ∧
      set_labels ⟨3, 1, 1, [1, 0, 2]⟩ = [1, 2] ∧
      vec_neighbors ⟨3, 1, 1, [1, 0, 2]⟩ = [[], []] ∧
      max_nr_neighbors ⟨3, 1, 1, [1, 0, 2]⟩ = 0 ∧ dim4 ⟨3, 1, 1, [1, 0, 2]⟩ = 1 ∧
      output ⟨3, 1, 1, [1, 0, 2]⟩ = [1, 0, 2]) ∧
    (∀ g : Grid, WellFormed g →
      (∀ p, p < nr_voxels g → ∀ q, q < nr_voxels g →
        g.at p ≠ 0 ∧ g.at q ≠ 0 ∧ g.at p ≠ g.at q → ¬ Adjacent g p q) →
      (∀ row ∈ vec_neighbors g, row = []) ∧ output g = g.data) := by
  refine ⟨by decide, ?_⟩
  intro g h hsep
  have hrows : ∀ row ∈ vec_neighbors g, row = [] := by
    intro row hrow
    rw [vec_neighbors_eq] at hrow
    obtain ⟨k, _, rfl⟩ := List.mem_map.1 hrow
    rw [List.eq_nil_iff_forall_not_mem]
    intro v hv
    obtain ⟨i, hi, hi0, hik, j, hj, e, h0, hne⟩ := (mem_row_of_iff g h k v).1 hv
    obtain ⟨hjlt, _, hadj⟩ := neighbor_reads_sound g h i j hi hj
    exact hsep i hi j hjlt ⟨hi0, by rw [e]; exact h0,
      by rw [hik, e]; exact fun e' => hne e'.symm⟩ hadj
  exact ⟨hrows, output_eq_data g h hrows⟩

/-- Witness for C17: the general part at the 5x1x1 grid `[4, 0, 0, -3, -3]`. -/
theorem separated_labels_witness :
    (∀ row ∈ vec_neighbors ⟨5, 1, 1, [4, 0, 0, -3, -3]⟩, row = []) ∧
    output ⟨5, 1, 1, [4, 0, 0, -3, -3]⟩ = [4, 0, 0, -3, -3] :=
  separated_labels.2 ⟨5, 1, 1, [4, 0, 0, -3, -3]⟩ (by decide) (by decide)

/-- C18 (the 26 branches refine the clipped neighbourhood). For sizes that fit
`uint32_t` and an in-bounds voxel `(ix, iy, iz)`, the list of linear indices
read by the 1-, 2- and 3-jump branches is a permutation of the specification's
clipped neighbourhood: one entry `sub2ind_3D(ix+dx, iy+dy, iz+dz)` for each of
the 26 distinct offsets of `{-1,0,1}^3` without `(0,0,0)` that stays inside the
grid; these are the reads made for a voxel `i` with these coordinates; an
interior voxel reads exactly 26 neighbours and a corner voxel of a grid with
all sizes at least 2 exactly 7. -/
theorem branches_refine_clipped (g : Grid) (ix iy iz : Nat)
    (hx : ix < g.size_x) (hy : iy < g.size_y) (hz : iz < g.size_z)
    (hsx : g.size_x < 4294967296) (hsy : g.size_y < 4294967296)
    (hsz : g.size_z < 4294967296) :
    (jumps g.size_x g.size_y (end_x g) (end_y g) (end_z g) ix iy iz).Perm
      (clipped_neighbourhood g.size_x g.size_y g.size_z ix iy iz) ∧
    (offsets26.length = 26 ∧ offsets26.Nodup) ∧
    (∀ i, ind2sub_3D i g.size_x g.size_y = (ix, iy, iz) →
      neighbor_reads g i = jumps g.size_x g.size_y (end_x g) (end_y g) (end_z g) ix iy iz) ∧
    (0 < ix ∧ ix + 1 < g.size_x ∧ 0 < iy ∧ iy + 1 < g.size_y ∧ 0 < iz ∧ iz + 1 < g.size_z →
      (jumps g.size_x g.size_y (end_x g) (end_y g) (end_z g) ix iy iz).length = 26) ∧
    ((ix = 0 ∨ ix + 1 = g.size_x) ∧ (iy = 0 ∨ iy + 1 = g.size_y) ∧
      (iz = 0 ∨ iz + 1 = g.size_z) ∧ 2 ≤ g.size_x ∧ 2 ≤ g.size_y ∧ 2 ≤ g.size_z →
      (jumps g.size_x g.size_y (end_x g) (end_y g) (end_z g) ix iy iz).length = 7) := by
  refine ⟨jumps_perm_clipped _ _ _ _ _ _ hx hy hz hsx hsy hsz, by decide, ?_, ?_, ?_⟩
  · intro i e
    unfold neighbor_reads
    rw [e]
  · rintro ⟨x0, x1, y0, y1, z0, z1⟩
    apply jumps_length_interior
    · exact x0
    · unfold end_x sub32; omega
    · exact y0
    · unfold end_y sub32; omega
    · exact z0
    · unfold end_z sub32; omega
  · rintro ⟨cx, cy, cz, sx2, sy2, sz2⟩
    apply jumps_length_corner
    · unfold end_x sub32; omega
    · unfold end_y sub32; omega
    · unfold end_z sub32; omega

/-- Witness for C18: the centre voxel `(1, 1, 1)` of a 3x3x3 grid reads 26
neighbours, and its reads are a permutation of the clipped neighbourhood. -/
theorem branches_refine_clipped_witness :
    (jumps 3 3 2 2 2 1 1 1).Perm (clipped_neighbourhood 3 3 3 1 1 1) ∧
    (jumps 3 3 2 2 2 1 1 1).length = 26 :=
  ⟨(branches_refine_clipped ⟨3, 3, 3, []⟩ 1 1 1 (by decide) (by decide) (by decide)
      (by decide) (by decide) (by decide)).1,
   (branches_refine_clipped ⟨3, 3, 3, []⟩ 1 1 1 (by decide) (by decide) (by decide)
      (by decide) (by decide) (by decide)).2.2.2.1 (by decide)⟩

/-- C19 (reads stay in bounds). For every grid with
`size_x*size_y*size_z < 2^32` and every position `i < nr_voxels` (so every
voxel of interest), every index `j` computed in the discovery loop is below
`nr_voxels`, differs from `i`, and has coordinates that differ from those of
`i` by at most one on each axis; it comes from a branch whose guards hold and
whose coordinate arithmetic does not wrap: the stepped coordinates equal
`ix + dx`, `iy + dy`, `iz + dz` as integers (so no `ix-1`, `iy-1`, `iz-1`
underflows) and `j` is their linear index computed without overflow. -/
theorem reads_in_bounds (g : Grid) (hn : g.size_x * g.size_y * g.size_z < 4294967296)
    (i : Nat) (hi : i < nr_voxels g) (j : Nat) (hj : j ∈ neighbor_reads g i) :
    j < nr_voxels g ∧ j ≠ i ∧ Adjacent g i j ∧
    ∃ mx my mz : Move,
      mx.ok (ind2sub_3D i g.size_x g.size_y).1 (end_x g) ∧
      my.ok (ind2sub_3D i g.size_x g.size_y).2.1 (end_y g) ∧
      mz.ok (ind2sub_3D i g.size_x g.size_y).2.2 (end_z g) ∧
      ((mx.app (ind2sub_3D i g.size_x g.size_y).1 : Nat) : Int) =
        ((ind2sub_3D i g.size_x g.size_y).1 : Int) + mx.off ∧
      ((my.app (ind2sub_3D i g.size_x g.size_y).2.1 : Nat) : Int) =
        ((ind2sub_3D i g.size_x g.size_y).2.1 : Int) + my.off ∧
      ((mz.app (ind2sub_3D i g.size_x g.size_y).2.2 : Nat) : Int) =
        ((ind2sub_3D i g.size_x g.size_y).2.2 : Int) + mz.off ∧
      j = g.size_x * g.size_y * mz.app (ind2sub_3D i g.size_x g.size_y).2.2
            + g.size_x * my.app (ind2sub_3D i g.size_x g.size_y).2.1
            + mx.app (ind2sub_3D i g.size_x g.size_y).1 := by
  have hwf : WellFormed ⟨g.size_x, g.size_y, g.size_z,
      List.replicate (g.size_x * g.size_y * g.size_z) 0⟩ := by
    refine ⟨by simp, hn, ?_⟩
    intro v hv
    rw [List.mem_replicate] at hv
    rw [hv.2]
    decide
  obtain ⟨h1, h2, h3⟩ := neighbor_reads_sound _ hwf i j hi hj
  refine ⟨h1, h2, h3, ?_⟩
  obtain ⟨mx, my, mz, _, okx, oky, okz, e⟩ := mem_jumps_sound _ _ _ _ _ _ _ _ _ hj
  obtain ⟨cx, cy, cz, _⟩ := hwf.coords i hi
  obtain ⟨sx, sy, sz, _⟩ := hwf.sizes_lt i hi
  obtain ⟨ax, _, _, _⟩ := Move.app_spec mx _ _ cx sx okx
  obtain ⟨ay, _, _, _⟩ := Move.app_spec my _ _ cy sy oky
  obtain ⟨az, _, _, _⟩ := Move.app_spec mz _ _ cz sz okz
  refine ⟨mx, my, mz, okx, oky, okz, Move.app_cast mx _ _ cx sx okx,
    Move.app_cast my _ _ cy sy oky, Move.app_cast mz _ _ cz sz okz, ?_⟩
  rw [e]
  exact sub2ind_eq _ _ _ _ _ _ ax ay az hn

/-- Witness for C19: the read `j = 4` of voxel `0` on a 3x3x1 grid. -/
theorem reads_in_bounds_witness :
    4 < nr_voxels ⟨3, 3, 1, [1, 2, 3, 0, 0, 0, 0, 0, 0]⟩ ∧ 4 ≠ 0 ∧
    Adjacent ⟨3, 3, 1, [1, 2, 3, 0, 0, 0, 0, 0, 0]⟩ 0 4 :=
  ⟨(reads_in_bounds ⟨3, 3, 1, [1, 2, 3, 0, 0, 0, 0, 0, 0]⟩ (by decide) 0 (by decide) 4
      (by decide)).1,
   (reads_in_bounds ⟨3, 3, 1, [1, 2, 3, 0, 0, 0, 0, 0, 0]⟩ (by decide) 0 (by decide) 4
      (by decide)).2.1,
   (reads_in_bounds ⟨3, 3, 1, [1, 2, 3, 0, 0, 0, 0, 0, 0]⟩ (by decide) 0 (by decide) 4
      (by decide)).2.2.1⟩

/-- C20 (each voxel of interest is processed once). For every grid: the
iteration of the per-label loop for `k` processes exactly the voxels of
`visits g k`; for every voxel of interest `i` exactly one label `k` of the
label set passes the test `grid[i] == k`, and that label occurs once in the
enumeration; over all iterations voxel `i` is visited exactly once; and the
number of visits summed over all labels is `nr_voi`.  For the loop itself:
the loop carrying a ghost log of its assignments `idx_label[i] = c` computes
the same state as `discovery`; the log holds exactly one assignment to
`idx_label[i]` for every voxel of interest `i`, only assignments to voxels of
interest, and `nr_voi` assignments in all; and `idx_label` is the initial
buffer with exactly the logged assignments applied. -/
theorem each_voxel_visited_once (g : Grid) :
    (∀ (k c : Int) (idx : List Int), scan_label g k c idx =
      (visits g k).foldl (fun st i => (st.1.set i c, visit_voxel g i st.2)) (idx, [])) ∧
    (∀ i, i < nr_voxels g → g.at i ≠ 0 →
      (∃! k, k ∈ set_labels g ∧ g.at i = k) ∧ (set_labels g).count (g.at i) = 1) ∧
    (∀ i, i < nr_voxels g → g.at i ≠ 0 →
      ((set_labels g).map (fun k => (visits g k).count i)).sum = 1) ∧
    ((set_labels g).map (fun k => (visits g k).length)).sum = nr_voi g ∧
    (discovery_logged g).1 = discovery g ∧
    (∀ i, i < nr_voxels g → g.at i ≠ 0 →
      ((discovery_logged g).2.filter (fun e => decide (e.1 = i))).length = 1) ∧
    (∀ e ∈ (discovery_logged g).2, e.1 < nr_voxels g ∧ g.at e.1 ≠ 0) ∧
    (discovery_logged g).2.length = nr_voi g ∧
    idx_label g =
      (discovery_logged g).2.foldl (fun b e => b.set e.1 e.2) (idx_label_init g) := by
  have hsum : ∀ i, i < nr_voxels g → g.at i ≠ 0 →
      ((set_labels g).map (fun k => (visits g k).count i)).sum = 1 := by
    intro i hi h0
    have hmem : g.at i ∈ set_labels g := (mem_set_labels g _).2 ⟨i, hi, h0, rfl⟩
    have hvoi : i ∈ voi_seq g := by
      rw [voi_seq_eq]; exact (mem_nonzero_positions g i).2 ⟨hi, h0⟩
    rw [sum_map_single (set_labels g) (fun k => (visits g k).count i) (g.at i)
      (set_labels_nodup g) hmem]
    · show (visits g (g.at i)).count i = 1
      apply List.count_eq_one_of_mem
      · exact (voi_seq_nodup g).sublist (List.filter_sublist _)
      · unfold visits
        exact List.mem_filter.2 ⟨hvoi, by simp⟩
    · intro k _ hne
      apply List.count_eq_zero_of_not_mem
      intro hm
      unfold visits at hm
      have := (List.mem_filter.1 hm).2
      simp only [decide_eq_true_eq] at this
      exact hne this.symm
  have htot : ((set_labels g).map (fun k => (visits g k).length)).sum = nr_voi g := by
    rw [nr_voi_eq, ← voi_seq_eq]
    unfold visits
    apply sum_length_filter (set_labels g) (set_labels_nodup g) (voi_seq g) g.at
    intro i hi
    rw [voi_seq_eq] at hi
    obtain ⟨h1, h2⟩ := (mem_nonzero_positions g i).1 hi
    exact (mem_set_labels g _).2 ⟨i, h1, h2, rfl⟩
  have hlog := discovery_logged_eq g
  refine ⟨?_, ?_, hsum, htot, by rw [hlog], ?_, ?_, ?_, ?_⟩
  · intro k c idx
    unfold scan_label visits
    exact foldl_ite_eq_foldl_filter (fun i => g.at i = k)
      (fun st i => (st.1.set i c, visit_voxel g i st.2)) (voi_seq g) (idx, [])
  · intro i hi h0
    have hmem : g.at i ∈ set_labels g := (mem_set_labels g _).2 ⟨i, hi, h0, rfl⟩
    exact ⟨⟨g.at i, ⟨hmem, rfl⟩, fun k hk => hk.2.symm⟩,
      List.count_eq_one_of_mem (set_labels_nodup g) hmem⟩
  · intro i hi h0
    rw [hlog, visit_log_count]
    exact hsum i hi h0
  · intro e he
    rw [hlog] at he
    exact mem_visit_log g _ _ e he
  · rw [hlog, visit_log_length]
    exact htot
  · rw [hlog]
    exact visit_log_replay g (set_labels g) ⟨idx_label_init g, [], 0, 0⟩

/-- Witness for C20: voxel `3` of the 2x2x1 grid `[5, 0, 9, 5]`, whose log of
assignments is `[(0, 0), (3, 0), (2, 1)]`. -/
theorem each_voxel_visited_once_witness :
    ((∃! k, k ∈ set_labels ⟨2, 2, 1, [5, 0, 9, 5]⟩ ∧ Grid.at ⟨2, 2, 1, [5, 0, 9, 5]⟩ 3 = k) ∧
      (set_labels ⟨2, 2, 1, [5, 0, 9, 5]⟩).count (Grid.at ⟨2, 2, 1, [5, 0, 9, 5]⟩ 3) = 1) ∧
    ((set_labels ⟨2, 2, 1, [5, 0, 9, 5]⟩).map
      (fun k => (visits ⟨2, 2, 1, [5, 0, 9, 5]⟩ k).count 3)).sum = 1 ∧
    (discovery_logged ⟨2, 2, 1, [5, 0, 9, 5]⟩).2 = [(0, 0), (3, 0), (2, 1)] ∧
    idx_label ⟨2, 2, 1, [5, 0, 9, 5]⟩ = [0, 0, 1, 0] ∧
    ((discovery_logged ⟨2, 2, 1, [5, 0, 9, 5]⟩).2.filter
      (fun e => decide (e.1 = 3))).length = 1 :=
  ⟨(each_voxel_visited_once ⟨2, 2, 1, [5, 0, 9, 5]⟩).2.1 3 (by decide) (by decide),
   (each_voxel_visited_once ⟨2, 2, 1, [5, 0, 9, 5]⟩).2.2.1 3 (by decide) (by decide),
   by decide, by decide,
   (each_voxel_visited_once ⟨2, 2, 1, [5, 0, 9, 5]⟩).2.2.2.2.2.1 3 (by decide) (by decide)⟩

/-- C21 (the packer stays in range). On a well-formed grid whose output size
`nr_voxels*(max_nr_neighbors+1)` does not overflow 32 bits, for every voxel of
interest `i`: `i` is inside `idx_label` and inside the output buffer, the row
index `j = idx_label[i]` is less than the number of rows of `vec_neighbors`, and
for every `m` below the length of row `j` the write index, which equals
`nr_voxels*(m+1) + i` without wrap-around, is strictly less than the allocated
element count `nr_voxels*(max_nr_neighbors+1)`. -/
theorem packer_in_range (g : Grid) (h : WellFormed g)
    (hov : nr_voxels g * (max_nr_neighbors g + 1) < 4294967296)
    (i : Nat) (hi : i < nr_voxels g) (h0 : g.at i ≠ 0) :
    i < (idx_label g).length ∧
    (output g).length = nr_voxels g * (max_nr_neighbors g + 1) ∧
    i < (output g).length ∧
    toU32 ((idx_label g).getD i 0) < (vec_neighbors g).length ∧
    ∀ m : Nat, m < ((vec_neighbors g).getD (toU32 ((idx_label g).getD i 0)) []).length →
      mul32 (nr_voxels g) (toU32 ((m : Int) + 1)) + i = nr_voxels g * (m + 1) + i ∧
      nr_voxels g * (m + 1) + i < nr_voxels g * (max_nr_neighbors g + 1) := by
  have hmem : g.at i ∈ set_labels g := (mem_set_labels g _).2 ⟨i, hi, h0, rfl⟩
  obtain ⟨c, hc⟩ := List.mem_iff_getElem?.1 hmem
  obtain ⟨hclt, _⟩ := List.getElem?_eq_some.1 hc
  have h2 := set_labels_length_le g
  have h3 := nr_voxels_lt g
  have hlen : (output g).length = nr_voxels g * (max_nr_neighbors g + 1) := by
    rw [output_length, nvox_eq g h hov]
  have hN1 : nr_voxels g ≤ nr_voxels g * (max_nr_neighbors g + 1) :=
    Nat.le_mul_of_pos_right _ (by omega)
  refine ⟨by rw [idx_label_length, h.length_eq]; exact hi, hlen, by omega, ?_, ?_⟩
  · rw [idx_label_at g h i c hi h0 hc, toU32_natCast c (by omega), vec_neighbors_length]
    exact hclt
  · intro m hm
    rw [row_lookup g h i hi h0] at hm
    have hmax := row_length_le_max g h (g.at i) hmem
    have hM := max_nr_neighbors_lt g h
    have e1 : toU32 ((m : Int) + 1) = m + 1 := by
      have := toU32_natCast (m + 1) (by omega)
      rw [← this]; push_cast; rfl
    have hle : nr_voxels g * (m + 1 + 1) ≤ nr_voxels g * (max_nr_neighbors g + 1) :=
      Nat.mul_le_mul_left _ (by omega)
    have hexp : nr_voxels g * (m + 1 + 1) = nr_voxels g * (m + 1) + nr_voxels g := by ring
    have e2 : mul32 (nr_voxels g) (m + 1) = nr_voxels g * (m + 1) := by
      unfold mul32; exact Nat.mod_eq_of_lt (by omega)
    rw [e1, e2]
    exact ⟨rfl, by omega⟩

/-- Witness for C21: voxel `1` (label `2`, two neighbours) of the 3x3x1 grid
`[1, 2, 3, 0, 0, 0, 0, 0, 0]`. -/
theorem packer_in_range_witness :
    toU32 ((idx_label ⟨3, 3, 1, [1, 2, 3, 0, 0, 0, 0, 0, 0]⟩).getD 1 0) <
      (vec_neighbors ⟨3, 3, 1, [1, 2, 3, 0, 0, 0, 0, 0, 0]⟩).length ∧
    nr_voxels ⟨3, 3, 1, [1, 2, 3, 0, 0, 0, 0, 0, 0]⟩ * (1 + 1) + 1 <
      nr_voxels ⟨3, 3, 1, [1, 2, 3, 0, 0, 0, 0, 0, 0]⟩ *
        (max_nr_neighbors ⟨3, 3, 1, [1, 2, 3, 0, 0, 0, 0, 0, 0]⟩ + 1) :=
  ⟨(packer_in_range ⟨3, 3, 1, [1, 2, 3, 0, 0, 0, 0, 0, 0]⟩ (by decide) (by decide) 1
      (by decide) (by decide)).2.2.2.1,
   ((packer_in_range ⟨3, 3, 1, [1, 2, 3, 0, 0, 0, 0, 0, 0]⟩ (by decide) (by decide) 1
      (by decide) (by decide)).2.2.2.2 1 (by decide)).2⟩

/-- C22 (no spurious neighbour). On a well-formed grid, for every label `k` with
row `row`: every `v` in `row` is a member of the label set, and `v` is in `row`
exactly when `v` is neither `0` nor `k` and there are in-bounds positions
`p ≠ q` with `grid[p] = k`, `grid[q] = v` whose coordinates differ by at most
one on each axis. -/
theorem adjacency_sound (g : Grid) (h : WellFormed g) (c : Nat) (k : Int) (row : List Int)
    (hc : (set_labels g)[c]? = some k) (hrow : (vec_neighbors g)[c]? = some row) (v : Int) :
    (v ∈ row → v ∈ set_labels g) ∧
    (v ∈ row ↔ v ≠ 0 ∧ v ≠ k ∧
      ∃ p q : Nat, p < nr_voxels g ∧ q < nr_voxels g ∧ p ≠ q ∧
        g.at p = k ∧ g.at q = v ∧ Adjacent g p q) := by
  have e := row_eq_of_index g c k row hc hrow
  subst e
  refine ⟨fun hv => (row_of_subset g h k v hv).1, ?_⟩
  rw [mem_row_of_iff g h]
  constructor
  · rintro ⟨i, hi, _, hik, j, hj, hjv, hv0, hvk⟩
    obtain ⟨hjlt, hji, hadj⟩ := neighbor_reads_sound g h i j hi hj
    exact ⟨hv0, hvk, i, j, hi, hjlt, fun e => hji e.symm, hik, hjv, hadj⟩
  · rintro ⟨hv0, hvk, p, q, hp, hq, hpq, hpk, hqv, hadj⟩
    have hk0 : g.at p ≠ 0 := by
      intro e0
      obtain ⟨hclt, hget⟩ := List.getElem?_eq_some.1 hc
      have hm : k ∈ set_labels g := hget ▸ List.getElem_mem _
      obtain ⟨i, _, hi0, hik⟩ := (mem_set_labels g k).1 hm
      rw [hik, ← hpk] at hi0
      exact hi0 e0
    exact ⟨p, hp, hk0, hpk, q, neighbor_reads_complete g h p q hp hq hpq hadj, hqv, hv0, hvk⟩

/-- Witness for C22: the value `3` in the row `[1, 3]` of label `2` on the 3x3x1
grid `[1, 2, 3, 0, 0, 0, 0, 0, 0]`. -/
theorem adjacency_sound_witness :
    ((3 : Int) ∈ ([1, 3] : List Int) → (3 : Int) ∈ set_labels ⟨3, 3, 1, [1, 2, 3, 0, 0, 0, 0, 0, 0]⟩) ∧
    ((3 : Int) ∈ ([1, 3] : List Int) ↔ (3 : Int) ≠ 0 ∧ (3 : Int) ≠ 2 ∧
      ∃ p q : Nat, p < nr_voxels ⟨3, 3, 1, [1, 2, 3, 0, 0, 0, 0, 0, 0]⟩ ∧
        q < nr_voxels ⟨3, 3, 1, [1, 2, 3, 0, 0, 0, 0, 0, 0]⟩ ∧ p ≠ q ∧
        Grid.at ⟨3, 3, 1, [1, 2, 3, 0, 0, 0, 0, 0, 0]⟩ p = 2 ∧
        Grid.at ⟨3, 3, 1, [1, 2, 3, 0, 0, 0, 0, 0, 0]⟩ q = 3 ∧
        Adjacent ⟨3, 3, 1, [1, 2, 3, 0, 0, 0, 0, 0, 0]⟩ p q) :=
  adjacency_sound ⟨3, 3, 1, [1, 2, 3, 0, 0, 0, 0, 0, 0]⟩ (by decide) 1 2 [1, 3]
    (by decide) (by decide) 3

/-- C23 (non-negative grids). On a well-formed grid all of whose voxel values
are non-negative, every row of `vec_neighbors` is strictly ascending as a list
of signed integers. -/
theorem rows_ascending_of_nonneg (g : Grid) (h : WellFormed g)
    (hnn : ∀ v ∈ g.data, 0 ≤ v) :
    ∀ row ∈ vec_neighbors g, row.Pairwise (· < ·) := by
  intro row hrow
  rw [vec_neighbors_eq] at hrow
  obtain ⟨k, _, rfl⟩ := List.mem_map.1 hrow
  apply row_of_sorted_of_nonneg
  intro v hv
  obtain ⟨i, hi, _, _, j, hj, e, _, _⟩ := (mem_row_of_iff g h k v).1 hv
  have hjlt := (neighbor_reads_sound g h i j hi hj).1
  rw [← h.length_eq] at hjlt
  rw [← e]
  unfold Grid.at
  rw [List.getD_eq_getElem _ _ hjlt]
  exact hnn _ (List.getElem_mem _)

/-- Witness for C23: the row `[5, 7, 9]` of label `2` on the 3x3x1 grid
`[5, 2, 9, 0, 7, 0, 0, 0, 0]`. -/
theorem rows_ascending_of_nonneg_witness :
    [5, 7, 9] ∈ vec_neighbors ⟨3, 3, 1, [5, 2, 9, 0, 7, 0, 0, 0, 0]⟩ ∧
    ([5, 7, 9] : List Int).Pairwise (· < ·) :=
  ⟨by decide,
   rows_ascending_of_nonneg ⟨3, 3, 1, [5, 2, 9, 0, 7, 0, 0, 0, 0]⟩ (by decide) (by decide)
    [5, 7, 9] (by decide)⟩

/-- C24 (bound on the channel count). On a well-formed grid with a non-empty
label set, every row has length at most the number of labels minus one, hence
`max_nr_neighbors` is at most the number of labels minus one and the trailing
dimension is at most the number of distinct nonzero labels. -/
theorem channel_count_bound (g : Grid) (h : WellFormed g) (hne : set_labels g ≠ []) :
    (∀ row ∈ vec_neighbors g, row.length ≤ (set_labels g).length - 1) ∧
    max_nr_neighbors g ≤ (set_labels g).length - 1 ∧
    dim4 g ≤ (set_labels g).length := by
  have hpos : 0 < (set_labels g).length := List.length_pos.2 hne
  have hrows : ∀ row ∈ vec_neighbors g, row.length ≤ (set_labels g).length - 1 := by
    intro row hrow
    rw [vec_neighbors_eq] at hrow
    obtain ⟨k, hk, rfl⟩ := List.mem_map.1 hrow
    have := row_of_length_lt g h k hk
    omega
  have hmax : max_nr_neighbors g ≤ (set_labels g).length - 1 := by
    rw [max_nr_neighbors_eq g h]
    unfold max_row_length
    apply foldr_max_le
    intro n hn
    obtain ⟨row, hrow, rfl⟩ := List.mem_map.1 hn
    exact hrows row hrow
  refine ⟨hrows, hmax, ?_⟩
  rw [dim4_eq g h]
  omega

/-- Witness for C24: the 3x3x1 grid `[1, 2, 3, 0, 0, 0, 0, 0, 0]` with three
labels and `max_nr_neighbors = 2`. -/
theorem channel_count_bound_witness :
    (∀ row ∈ vec_neighbors ⟨3, 3, 1, [1, 2, 3, 0, 0, 0, 0, 0, 0]⟩,
      row.length ≤ (set_labels ⟨3, 3, 1, [1, 2, 3, 0, 0, 0, 0, 0, 0]⟩).length - 1) ∧
    max_nr_neighbors ⟨3, 3, 1, [1, 2, 3, 0, 0, 0, 0, 0, 0]⟩ ≤
      (set_labels ⟨3, 3, 1, [1, 2, 3, 0, 0, 0, 0, 0, 0]⟩).length - 1 ∧
    dim4 ⟨3, 3, 1, [1, 2, 3, 0, 0, 0, 0, 0, 0]⟩ ≤
      (set_labels ⟨3, 3, 1, [1, 2, 3, 0, 0, 0, 0, 0, 0]⟩).length :=
  channel_count_bound ⟨3, 3, 1, [1, 2, 3, 0, 0, 0, 0, 0, 0]⟩ (by decide) (by decide)

end LN2
